import Mathlib

/-!
Verification of the go-lru repository: the `internal` bounded recency list
(`internal.LRU`), the simple `Cache` of `lru.go`, and the adaptive
replacement cache of `arc.go` (`ARCCache`).

Keys are modelled as `Nat` (Go `interface{}` keys are opaque and only
compared for equality), values of the live lists as `Nat`, and the ghost
lists carry `Unit` values (Go inserts `nil`).  Each recency list is a
`List` of key/value pairs ordered from most- to least-recently touched,
together with its fixed capacity.
-/

/-- Modelled from the spec: the repository's `internal` package (the
bounded recency list `internal.LRU` used by `arc.go`) is not among the
source files, so it is reconstructed from spec section 4.1.  `entries` is
ordered most-recent first; `size` is the fixed capacity.  The eviction
callback of the Go code is modelled by returning the capacity-evicted
entry from `addE` / the removed entry from `removeOldestE`, which the
caller (the ARC wiring of `NewARC`) forwards to the ghost lists. -/
structure LRU (V : Type) where
  size : Nat
  entries : List (Nat × V)

/-- Modelled from the spec: `contains` is an existence check with no
reordering (spec section 4.1). -/
def LRU.contains {V : Type} (c : LRU V) (k : Nat) : Bool :=
  c.entries.any (fun e => e.1 == k)

/-- Modelled from the spec: `peek` looks the key up without reordering
(spec section 4.1). -/
def LRU.peek {V : Type} (c : LRU V) (k : Nat) : Option V :=
  (c.entries.find? (fun e => e.1 == k)).map (fun e => e.2)

/-- Modelled from the spec: `get` looks the key up and on a hit moves the
entry to the most-recent position (spec section 4.1). -/
def LRU.get {V : Type} (c : LRU V) (k : Nat) : LRU V × Option V :=
  match c.entries.find? (fun e => e.1 == k) with
  | none => (c, none)
  | some e =>
      ({ c with entries := e :: c.entries.filter (fun x => x.1 != k) }, some e.2)

/-- Modelled from the spec: `add` with eviction reporting.  A present key
is moved to the most-recent position with its value overwritten; an
absent key is inserted at the most-recent position, and if the length now
exceeds the capacity the least-recently-touched entry is evicted and
returned (the Go implementation hands it to the eviction callback; spec
sections 4.1 and 3). -/
def LRU.addE {V : Type} (c : LRU V) (k : Nat) (v : V) : LRU V × Option (Nat × V) :=
  if c.contains k then
    ({ c with entries := (k, v) :: c.entries.filter (fun x => x.1 != k) }, none)
  else if c.entries.length + 1 > c.size then
    ({ c with entries := ((k, v) :: c.entries).dropLast }, ((k, v) :: c.entries).getLast?)
  else
    ({ c with entries := (k, v) :: c.entries }, none)

/-- `add` discarding the eviction report (used for the ghost lists, which
are built with a nil callback in `NewARC`). -/
def LRU.add {V : Type} (c : LRU V) (k : Nat) (v : V) : LRU V :=
  (c.addE k v).1

/-- Modelled from the spec: `remove` deletes the entry if present and does
not trigger the eviction callback (spec section 4.1). -/
def LRU.remove {V : Type} (c : LRU V) (k : Nat) : LRU V :=
  { c with entries := c.entries.filter (fun x => x.1 != k) }

/-- Modelled from the spec: `removeOldest` deletes the least-recently
touched entry and reports it.  Spec sections 4.2 and 8 require this
removal to reach the eviction callback (an eviction from T1 via
`replace` or the full-T1 branch of `add` repopulates B1: "its callback
naturally repopulates B1", and the worked scenario of section 8 shows
`replace` moving the evicted key into B1), so the removed entry is
returned to the caller, which forwards it to the ghost wiring; the
contrary sentence of section 4.1 is inconsistent with sections 4.2 and 8
and with the ghost lists ever being populated. -/
def LRU.removeOldestE {V : Type} (c : LRU V) : LRU V × Option (Nat × V) :=
  match c.entries.getLast? with
  | none => (c, none)
  | some e => ({ c with entries := c.entries.dropLast }, some e)

/-- `removeOldest` discarding the report (used on the ghost lists). -/
def LRU.removeOldest {V : Type} (c : LRU V) : LRU V :=
  c.removeOldestE.1

/-- Number of entries. -/
def LRU.len {V : Type} (c : LRU V) : Nat :=
  c.entries.length

/-- All keys. -/
def LRU.keys {V : Type} (c : LRU V) : List Nat :=
  c.entries.map Prod.fst

/-- Modelled from the spec: `purge` removes all entries without firing
callbacks (spec section 4.1). -/
def LRU.purge {V : Type} (c : LRU V) : LRU V :=
  { c with entries := [] }

/-- Modelled from the spec: `internal.NewLRU` fails exactly on a
non-positive capacity (spec sections 4.1 and 7).  The callback argument
of the Go constructor is modelled by the eviction reporting of
`LRU.addE` / `LRU.removeOldestE`. -/
def NewLRU (V : Type) (size : Int) : Option (LRU V) :=
  if size ≤ 0 then none else some ⟨size.toNat, []⟩

/-- The simple cache of `lru.go` (package-level `Cache`): a bounded
recency list without an eviction callback.  The `evictList` plus `items`
index pair of the source is modelled as a single association list ordered
most-recent first. -/
structure Cache (V : Type) where
  size : Nat
  evictList : List (Nat × V)

/-- `New` of `lru.go`: errors on a non-positive size. -/
def New (V : Type) (size : Int) : Option (Cache V) :=
  if size ≤ 0 then none else some ⟨size.toNat, []⟩

/-- `Cache.Add` of `lru.go`: move-to-front with overwrite when present,
push-front otherwise, evicting the oldest entry when the length exceeds
the capacity. -/
def Cache.Add {V : Type} (c : Cache V) (k : Nat) (v : V) : Cache V :=
  if c.evictList.any (fun e => e.1 == k) then
    { c with evictList := (k, v) :: c.evictList.filter (fun x => x.1 != k) }
  else if c.evictList.length + 1 > c.size then
    { c with evictList := ((k, v) :: c.evictList).dropLast }
  else
    { c with evictList := (k, v) :: c.evictList }

/-- `Cache.Len` of `lru.go`. -/
def Cache.Len {V : Type} (c : Cache V) : Nat :=
  c.evictList.length

/-- `Cache.Get` of `lru.go`: lookup with move-to-front on a hit. -/
def Cache.Get {V : Type} (c : Cache V) (k : Nat) : Cache V × Option V :=
  match c.evictList.find? (fun e => e.1 == k) with
  | none => (c, none)
  | some e =>
      ({ c with evictList := e :: c.evictList.filter (fun x => x.1 != k) }, some e.2)

/-- The ARC cache of `arc.go`.  Field names follow the source: `t1`/`t2`
are the live recency and frequency lists, `b1`/`b2` the ghost lists, `p`
the adaptive target size for T1. -/
structure ARCCache where
  size : Nat
  p : Nat
  t1 : LRU Nat
  b1 : LRU Unit
  t2 : LRU Nat
  b2 : LRU Unit

/-- `t1.Add` with the eviction callback of `NewARC` wired in: a capacity
eviction from T1 inserts the evicted key into B1 (value discarded). -/
def ARCCache.t1Add (c : ARCCache) (k v : Nat) : ARCCache :=
  match c.t1.addE k v with
  | (t1', none) => { c with t1 := t1' }
  | (t1', some e) => { c with t1 := t1', b1 := c.b1.add e.1 () }

/-- `t2.Add` with the eviction callback of `NewARC` wired in: a capacity
eviction from T2 inserts the evicted key into B2. -/
def ARCCache.t2Add (c : ARCCache) (k v : Nat) : ARCCache :=
  match c.t2.addE k v with
  | (t2', none) => { c with t2 := t2' }
  | (t2', some e) => { c with t2 := t2', b2 := c.b2.add e.1 () }

/-- `t1.RemoveOldest` with the callback wired in: the removed key goes to
B1. -/
def ARCCache.t1RemoveOldest (c : ARCCache) : ARCCache :=
  match c.t1.removeOldestE with
  | (t1', none) => { c with t1 := t1' }
  | (t1', some e) => { c with t1 := t1', b1 := c.b1.add e.1 () }

/-- `t2.RemoveOldest` with the callback wired in: the removed key goes to
B2. -/
def ARCCache.t2RemoveOldest (c : ARCCache) : ARCCache :=
  match c.t2.removeOldestE with
  | (t2', none) => { c with t2 := t2' }
  | (t2', some e) => { c with t2 := t2', b2 := c.b2.add e.1 () }

/-- `ARCCache.replace` of `arc.go`: adaptively evict from T1 or T2. -/
def ARCCache.replace (c : ARCCache) (k : Nat) : ARCCache :=
  let t1Len := c.t1.len
  if t1Len > 0 ∧ (t1Len > c.p ∨ (t1Len = c.p ∧ c.b2.contains k)) then
    c.t1RemoveOldest
  else
    c.t2RemoveOldest

/-- `ARCCache.Get` of `arc.go`. -/
def ARCCache.Get (c : ARCCache) (k : Nat) : ARCCache × Option Nat :=
  match c.t1.peek k with
  | some v => (({ c with t1 := c.t1.remove k }).t2Add k v, some v)
  | none =>
      match c.t2.get k with
      | (t2', some v) => ({ c with t2 := t2' }, some v)
      | (_, none) => (c, none)

/-- The B1 ghost-hit branch of `ARCCache.Add` (arc.go lines 103 to 126):
bump `p` by `delta` capped at `size`, make room with `replace`, drop the
key from B1 and add it to T2. -/
def ARCCache.addB1 (c : ARCCache) (k v : Nat) : ARCCache :=
  let delta := if c.b2.len > c.b1.len then c.b2.len / c.b1.len else 1
  let c1 : ARCCache :=
    { c with p := if c.p + delta ≥ c.size then c.size else c.p + delta }
  let c2 := c1.replace k
  let c3 : ARCCache := { c2 with b1 := c2.b1.remove k }
  c3.t2Add k v

/-- The B2 ghost-hit branch of `ARCCache.Add` (arc.go lines 130 to 153):
lower `p` by `delta` floored at 0, make room with `replace`, drop the key
from B2 and add it to T2. -/
def ARCCache.addB2 (c : ARCCache) (k v : Nat) : ARCCache :=
  let delta := if c.b1.len > c.b2.len then c.b1.len / c.b2.len else 1
  let c1 : ARCCache :=
    { c with p := if delta ≥ c.p then 0 else c.p - delta }
  let c2 := c1.replace k
  let c3 : ARCCache := { c2 with b2 := c2.b2.remove k }
  c3.t2Add k v

/-- The miss branch of `ARCCache.Add` (arc.go lines 155 to 179): capacity
management (the lengths are all read from the pre-state, as in the
source, where they are computed before any mutation), then insert into
T1. -/
def ARCCache.addMiss (c : ARCCache) (k v : Nat) : ARCCache :=
  (if c.t1.len + c.b1.len = c.size then
    if c.t1.len = c.size then
      c.t1RemoveOldest
    else
      ({ c with b1 := c.b1.removeOldest }).replace k
  else
    if c.t1.len + c.t2.len + c.b1.len + c.b2.len ≥ c.size then
      (if c.t1.len + c.t2.len + c.b1.len + c.b2.len = 2 * c.size then
        { c with b2 := c.b2.removeOldest }
      else c).replace k
    else c).t1Add k v

/-- `ARCCache.Add` of `arc.go`: the five exclusive cases in source
order. -/
def ARCCache.Add (c : ARCCache) (k v : Nat) : ARCCache :=
  if c.t1.contains k then
    ({ c with t1 := c.t1.remove k }).t2Add k v
  else if c.t2.contains k then
    c.t2Add k v
  else if c.b1.contains k then
    c.addB1 k v
  else if c.b2.contains k then
    c.addB2 k v
  else
    c.addMiss k v

/-- `ARCCache.Len` of `arc.go`. -/
def ARCCache.Len (c : ARCCache) : Nat :=
  c.t1.len + c.t2.len

/-- `ARCCache.Keys` of `arc.go`. -/
def ARCCache.Keys (c : ARCCache) : List Nat :=
  c.t1.keys ++ c.t2.keys

/-- `ARCCache.Remove` of `arc.go`. -/
def ARCCache.Remove (c : ARCCache) (k : Nat) : ARCCache :=
  { c with t1 := c.t1.remove k, t2 := c.t2.remove k,
           b1 := c.b1.remove k, b2 := c.b2.remove k }

/-- `ARCCache.Purge` of `arc.go`. -/
def ARCCache.Purge (c : ARCCache) : ARCCache :=
  { c with t1 := c.t1.purge, t2 := c.t2.purge,
           b1 := c.b1.purge, b2 := c.b2.purge }

/-- `ARCCache.Contains` of `arc.go`. -/
def ARCCache.Contains (c : ARCCache) (k : Nat) : Bool :=
  c.t1.contains k || c.t2.contains k

/-- `ARCCache.Peek` of `arc.go`. -/
def ARCCache.Peek (c : ARCCache) (k : Nat) : Option Nat :=
  match c.t1.peek k with
  | some v => some v
  | none => c.t2.peek k

/-- The freshly constructed ARC cache of a given (already validated)
capacity, as built by `NewARC`. -/
def arcInit (n : Nat) : ARCCache :=
  { size := n, p := 0, t1 := ⟨n, []⟩, b1 := ⟨n, []⟩, t2 := ⟨n, []⟩, b2 := ⟨n, []⟩ }

/-- `NewARC` of `arc.go`: builds the four sub-lists (each of capacity
`size`, failing for a non-positive size exactly as `internal.NewLRU`
does) and starts with `p = 0`. -/
def NewARC (size : Int) : Option ARCCache :=
  if size ≤ 0 then none else some (arcInit size.toNat)

/-- The public operations of the ARC cache, for quantifying over
operation sequences. -/
inductive Op where
  | add (k v : Nat)
  | get (k : Nat)
  | remove (k : Nat)
  | purge
  | contains (k : Nat)
  | peek (k : Nat)
  | len
  | keys

/-- State transition of one public operation (the pure observers
`contains`, `peek`, `len`, `keys` leave the state unchanged). -/
def applyOp (c : ARCCache) : Op → ARCCache
  | .add k v => c.Add k v
  | .get k => (c.Get k).1
  | .remove k => c.Remove k
  | .purge => c.Purge
  | .contains _ => c
  | .peek _ => c
  | .len => c
  | .keys => c

/-- Run a sequence of public operations. -/
def runOps (c : ARCCache) (ops : List Op) : ARCCache :=
  ops.foldl applyOp c

/-- In how many of the four lists a key is present. -/
def ARCCache.inCount (c : ARCCache) (k : Nat) : Nat :=
  (if c.t1.contains k then 1 else 0) + (if c.t2.contains k then 1 else 0) +
    (if c.b1.contains k then 1 else 0) + (if c.b2.contains k then 1 else 0)

/-- Key-exclusivity invariant: the four key lists are pairwise disjoint
and each is duplicate-free. -/
def ARCCache.Inv (c : ARCCache) : Prop :=
  c.t1.keys.Nodup ∧ c.t2.keys.Nodup ∧ c.b1.keys.Nodup ∧ c.b2.keys.Nodup ∧
    c.t1.keys.Disjoint c.t2.keys ∧ c.t1.keys.Disjoint c.b1.keys ∧
    c.t1.keys.Disjoint c.b2.keys ∧ c.t2.keys.Disjoint c.b1.keys ∧
    c.t2.keys.Disjoint c.b2.keys ∧ c.b1.keys.Disjoint c.b2.keys

/-- The key occurs in none of the four lists. -/
def ARCCache.FreshFor (c : ARCCache) (k : Nat) : Prop :=
  k ∉ c.t1.keys ∧ k ∉ c.t2.keys ∧ k ∉ c.b1.keys ∧ k ∉ c.b2.keys

/-- Adds a list of key/value pairs in order (used to state the
ghost-hit-adaptation scenario). -/
def addAll (c : ARCCache) (ps : List (Nat × Nat)) : ARCCache :=
  ps.foldl (fun c p => c.Add p.1 p.2) c

/-! ### Basic facts about the bounded recency list -/

theorem keys_filter_ne {V : Type} (es : List (Nat × V)) (k : Nat) :
    (es.filter (fun x => x.1 != k)).map Prod.fst =
      (es.map Prod.fst).filter (fun a => a != k) := by
  induction es with
  | nil => rfl
  | cons e es ih =>
      simp only [List.map_cons, List.filter_cons]
      by_cases h : e.1 = k
      · simp [h, ih]
      · simp [h, ih]

theorem LRU.keys_remove {V : Type} (l : LRU V) (k : Nat) :
    (l.remove k).keys = l.keys.filter (fun a => a != k) :=
  keys_filter_ne l.entries k

theorem LRU.mem_keys_remove {V : Type} {l : LRU V} {a k : Nat} :
    a ∈ (l.remove k).keys ↔ a ∈ l.keys ∧ a ≠ k := by
  rw [LRU.keys_remove]
  simp [List.mem_filter]

theorem LRU.nodup_keys_remove {V : Type} {l : LRU V} (k : Nat) (h : l.keys.Nodup) :
    (l.remove k).keys.Nodup := by
  rw [LRU.keys_remove]
  exact h.filter _

theorem LRU.contains_iff_mem {V : Type} {l : LRU V} {k : Nat} :
    l.contains k = true ↔ k ∈ l.keys := by
  simp [LRU.contains, LRU.keys, List.any_eq_true, List.mem_map]

theorem LRU.contains_eq_false_iff {V : Type} {l : LRU V} {k : Nat} :
    l.contains k = false ↔ k ∉ l.keys := by
  rw [← LRU.contains_iff_mem]
  cases l.contains k <;> simp

theorem LRU.len_pos_of_contains {V : Type} {l : LRU V} {k : Nat}
    (h : l.contains k = true) : 1 ≤ l.len := by
  rcases LRU.contains_iff_mem.mp h with hm
  rcases List.mem_map.mp hm with ⟨e, he, -⟩
  cases hes : l.entries with
  | nil => rw [hes] at he; cases he
  | cons a t => simp [LRU.len, hes]

theorem LRU.peek_eq_none_iff {V : Type} {l : LRU V} {k : Nat} :
    l.peek k = none ↔ k ∉ l.keys := by
  have h1 : l.peek k = none ↔ l.entries.find? (fun e => e.1 == k) = none := by
    simp [LRU.peek]
  rw [h1, ← LRU.contains_eq_false_iff, ← Bool.not_eq_true, List.find?_eq_none,
    LRU.contains, List.any_eq_true]
  constructor
  · rintro h ⟨x, hx, hp⟩
    exact h x hx hp
  · intro h x hx hp
    exact h ⟨x, hx, hp⟩

theorem LRU.mem_of_peek_eq_some {V : Type} {l : LRU V} {k : Nat} {v : V}
    (h : l.peek k = some v) : k ∈ l.keys := by
  by_contra hk
  rw [← LRU.peek_eq_none_iff] at hk
  rw [h] at hk
  cases hk

/-! ### Case equations for `addE` and `removeOldestE` -/

theorem LRU.addE_of_contains {V : Type} {l : LRU V} {k : Nat} (v : V)
    (h : l.contains k = true) :
    l.addE k v =
      ({ l with entries := (k, v) :: l.entries.filter (fun x => x.1 != k) }, none) := by
  simp [LRU.addE, h]

theorem LRU.addE_of_fits {V : Type} {l : LRU V} {k : Nat} (v : V)
    (h : l.contains k = false) (hlen : l.entries.length + 1 ≤ l.size) :
    l.addE k v = ({ l with entries := (k, v) :: l.entries }, none) := by
  have h2 : ¬(l.entries.length + 1 > l.size) := by omega
  simp [LRU.addE, h, h2]

theorem LRU.addE_of_full {V : Type} {l : LRU V} {k : Nat} (v : V)
    (h : l.contains k = false) (hlen : l.size < l.entries.length + 1) :
    l.addE k v = ({ l with entries := ((k, v) :: l.entries).dropLast },
                  ((k, v) :: l.entries).getLast?) := by
  simp [LRU.addE, h, hlen]

theorem LRU.removeOldestE_of_nil {V : Type} {l : LRU V} (h : l.entries = []) :
    l.removeOldestE = (l, none) := by
  simp [LRU.removeOldestE, h]

theorem LRU.removeOldestE_of_getLast {V : Type} {l : LRU V} {e : Nat × V}
    (h : l.entries.getLast? = some e) :
    l.removeOldestE = ({ l with entries := l.entries.dropLast }, some e) := by
  simp [LRU.removeOldestE, h]

/-! ### Key-set effect of `add` and `removeOldestE` -/

theorem mem_map_fst_dropLast {V : Type} {es : List (Nat × V)} {a : Nat}
    (h : a ∈ es.dropLast.map Prod.fst) : a ∈ es.map Prod.fst :=
  ((List.dropLast_sublist es).map Prod.fst).subset h

theorem nodup_map_fst_dropLast {V : Type} {es : List (Nat × V)}
    (h : (es.map Prod.fst).Nodup) : (es.dropLast.map Prod.fst).Nodup :=
  ((List.dropLast_sublist es).map Prod.fst).nodup h

theorem LRU.mem_keys_add {V : Type} {l : LRU V} {a k : Nat} {v : V}
    (h : a ∈ (l.add k v).keys) : a = k ∨ a ∈ l.keys := by
  unfold LRU.add at h
  by_cases hc : l.contains k = true
  · rw [LRU.addE_of_contains v hc] at h
    simp only [LRU.keys, keys_filter_ne, List.map_cons, List.mem_cons] at h
    rcases h with h | h
    · exact Or.inl h
    · exact Or.inr (List.mem_of_mem_filter h)
  · rw [Bool.not_eq_true] at hc
    by_cases hlen : l.entries.length + 1 ≤ l.size
    · rw [LRU.addE_of_fits v hc hlen] at h
      simp only [LRU.keys, List.map_cons, List.mem_cons] at h
      exact h
    · rw [LRU.addE_of_full v hc (by omega)] at h
      simp only [LRU.keys] at h
      have h2 : a ∈ ((k, v) :: l.entries).map Prod.fst := mem_map_fst_dropLast h
      simp only [List.map_cons, List.mem_cons] at h2
      exact h2

theorem LRU.nodup_keys_add {V : Type} {l : LRU V} {k : Nat} {v : V}
    (h : l.keys.Nodup) : (l.add k v).keys.Nodup := by
  unfold LRU.add
  by_cases hc : l.contains k = true
  · rw [LRU.addE_of_contains v hc]
    simp only [LRU.keys, keys_filter_ne, List.map_cons]
    refine List.Nodup.cons ?_ (h.filter _)
    intro hk
    rcases List.mem_filter.mp hk with ⟨-, hne⟩
    simp at hne
  · rw [Bool.not_eq_true] at hc
    have hk : k ∉ l.keys := LRU.contains_eq_false_iff.mp hc
    by_cases hlen : l.entries.length + 1 ≤ l.size
    · rw [LRU.addE_of_fits v hc hlen]
      simp only [LRU.keys, List.map_cons]
      exact List.Nodup.cons hk h
    · rw [LRU.addE_of_full v hc (by omega)]
      have hnd : (((k, v) :: l.entries).map Prod.fst).Nodup := by
        simp only [List.map_cons]
        exact List.Nodup.cons hk h
      exact nodup_map_fst_dropLast hnd

/-! ### getLast? helpers -/

theorem getLast?_mem {α : Type _} {l : List α} {a : α} (h : l.getLast? = some a) :
    a ∈ l := by
  have hne : l ≠ [] := by
    intro he
    rw [he] at h
    cases h
  rw [List.getLast?_eq_getLast l hne] at h
  have ha : l.getLast hne = a := by injection h
  rw [← ha]
  exact List.getLast_mem hne

theorem getLast?_not_mem_dropLast {α : Type _} {l : List α} {a : α}
    (hnd : l.Nodup) (h : l.getLast? = some a) : a ∉ l.dropLast := by
  have hne : l ≠ [] := by
    intro he
    rw [he] at h
    cases h
  have hdec := List.dropLast_append_getLast hne
  rw [List.getLast?_eq_getLast l hne] at h
  have ha : l.getLast hne = a := by injection h
  intro hmem
  rw [← hdec] at hnd
  rcases List.nodup_append.mp hnd with ⟨-, -, hdisj⟩
  exact hdisj hmem (ha ▸ List.mem_singleton_self _)

/-! ### Characterizations of `removeOldestE` and `addE` results -/

theorem LRU.removeOldestE_none {V : Type} {l l' : LRU V}
    (h : l.removeOldestE = (l', none)) : l' = l := by
  unfold LRU.removeOldestE at h
  cases hg : l.entries.getLast? with
  | none =>
      rw [hg] at h
      simp at h
      exact h.symm
  | some e =>
      rw [hg] at h
      simp at h

theorem LRU.removeOldestE_some {V : Type} {l l' : LRU V} {e : Nat × V}
    (h : l.removeOldestE = (l', some e)) :
    l'.entries = l.entries.dropLast ∧ l.entries.getLast? = some e ∧ l'.size = l.size := by
  unfold LRU.removeOldestE at h
  cases hg : l.entries.getLast? with
  | none =>
      rw [hg] at h
      simp at h
  | some e' =>
      rw [hg] at h
      simp only [Prod.mk.injEq, Option.some.injEq] at h
      rcases h with ⟨h1, h2⟩
      subst h2
      exact ⟨by rw [← h1], rfl, by rw [← h1]⟩

theorem LRU.removeOldestE_some_keys {V : Type} {l l' : LRU V} {e : Nat × V}
    (h : l.removeOldestE = (l', some e)) : l'.keys = l.keys.dropLast := by
  rcases LRU.removeOldestE_some h with ⟨h1, -, -⟩
  unfold LRU.keys
  rw [h1]
  exact List.map_dropLast _ _

theorem LRU.removeOldestE_some_mem {V : Type} {l l' : LRU V} {e : Nat × V}
    (h : l.removeOldestE = (l', some e)) : e.1 ∈ l.keys := by
  rcases LRU.removeOldestE_some h with ⟨-, h2, -⟩
  exact List.mem_map_of_mem Prod.fst (getLast?_mem h2)

theorem LRU.removeOldestE_some_not_mem {V : Type} {l l' : LRU V} {e : Nat × V}
    (h : l.removeOldestE = (l', some e)) (hnd : l.keys.Nodup) : e.1 ∉ l'.keys := by
  rcases LRU.removeOldestE_some h with ⟨-, h2, -⟩
  rw [LRU.removeOldestE_some_keys h]
  have hg : l.keys.getLast? = some e.1 := by
    unfold LRU.keys
    rw [List.getLast?_map, h2]
    rfl
  exact getLast?_not_mem_dropLast hnd hg

theorem LRU.removeOldestE_fst_keys_subset {V : Type} (l : LRU V) {a : Nat}
    (h : a ∈ l.removeOldestE.1.keys) : a ∈ l.keys := by
  cases hr : l.removeOldestE with
  | mk l' ev =>
      cases ev with
      | none =>
          rw [LRU.removeOldestE_none hr] at hr
          rw [hr] at h
          exact h
      | some e =>
          rw [hr] at h
          simp only at h
          rw [LRU.removeOldestE_some_keys hr] at h
          exact (List.dropLast_sublist _).subset h

theorem LRU.removeOldestE_fst_nodup {V : Type} (l : LRU V) (hnd : l.keys.Nodup) :
    l.removeOldestE.1.keys.Nodup := by
  cases hr : l.removeOldestE with
  | mk l' ev =>
      cases ev with
      | none =>
          rw [LRU.removeOldestE_none hr]
          exact hnd
      | some e =>
          simp only
          rw [LRU.removeOldestE_some_keys hr]
          exact (List.dropLast_sublist _).nodup hnd

theorem LRU.addE_some {V : Type} {l l' : LRU V} {k : Nat} {v : V} {e : Nat × V}
    (h : l.addE k v = (l', some e)) :
    l.contains k = false ∧ l'.entries = ((k, v) :: l.entries).dropLast ∧
      ((k, v) :: l.entries).getLast? = some e ∧ l'.size = l.size := by
  unfold LRU.addE at h
  by_cases hc : l.contains k = true
  · simp [hc] at h
  · rw [Bool.not_eq_true] at hc
    by_cases hlen : l.entries.length + 1 > l.size
    · simp only [hc, Bool.false_eq_true, if_false, hlen, if_true, Prod.mk.injEq] at h
      rcases h with ⟨h1, h2⟩
      exact ⟨hc, by rw [← h1], h2, by rw [← h1]⟩
    · simp [hc, hlen] at h

theorem LRU.addE_some_mem {V : Type} {l l' : LRU V} {k : Nat} {v : V} {e : Nat × V}
    (h : l.addE k v = (l', some e)) : e.1 = k ∨ e.1 ∈ l.keys := by
  rcases LRU.addE_some h with ⟨-, -, h3, -⟩
  have := List.mem_map_of_mem Prod.fst (getLast?_mem h3)
  simp only [List.map_cons, List.mem_cons] at this
  exact this

theorem LRU.addE_some_not_mem {V : Type} {l l' : LRU V} {k : Nat} {v : V} {e : Nat × V}
    (h : l.addE k v = (l', some e)) (hnd : l.keys.Nodup) : e.1 ∉ l'.keys := by
  rcases LRU.addE_some h with ⟨hc, h1, h3, -⟩
  have hk : k ∉ l.keys := LRU.contains_eq_false_iff.mp hc
  have hnd2 : ((k, v) :: l.entries).map Prod.fst |>.Nodup := by
    simp only [List.map_cons]
    exact List.Nodup.cons hk hnd
  have hg : (((k, v) :: l.entries).map Prod.fst).getLast? = some e.1 := by
    rw [List.getLast?_map, h3]
    rfl
  have hnm := getLast?_not_mem_dropLast hnd2 hg
  unfold LRU.keys
  rw [h1, List.map_dropLast]
  exact hnm

theorem LRU.addE_fst_mem {V : Type} {l l' : LRU V} {k : Nat} {v : V} {ev : Option (Nat × V)}
    (h : l.addE k v = (l', ev)) {a : Nat} (ha : a ∈ l'.keys) : a = k ∨ a ∈ l.keys := by
  have := LRU.mem_keys_add (l := l) (k := k) (v := v) (a := a)
  unfold LRU.add at this
  rw [h] at this
  exact this ha

theorem LRU.addE_fst_nodup {V : Type} {l l' : LRU V} {k : Nat} {v : V} {ev : Option (Nat × V)}
    (h : l.addE k v = (l', ev)) (hnd : l.keys.Nodup) : l'.keys.Nodup := by
  have := LRU.nodup_keys_add (l := l) (k := k) (v := v) hnd
  unfold LRU.add at this
  rw [h] at this
  exact this

theorem LRU.addE_fst_size {V : Type} {l l' : LRU V} {k : Nat} {v : V} {ev : Option (Nat × V)}
    (h : l.addE k v = (l', ev)) : l'.size = l.size := by
  unfold LRU.addE at h
  by_cases hc : l.contains k = true
  · simp only [hc, if_true, Prod.mk.injEq] at h
    rw [← h.1]
  · rw [Bool.not_eq_true] at hc
    by_cases hlen : l.entries.length + 1 > l.size
    · simp only [hc, Bool.false_eq_true, if_false, hlen, if_true, Prod.mk.injEq] at h
      rw [← h.1]
    · simp only [hc, Bool.false_eq_true, if_false, hlen, Prod.mk.injEq] at h
      rw [← h.1]

/-! ### Facts about `LRU.get` -/

theorem LRU.get_of_find?_none {V : Type} {l : LRU V} {k : Nat}
    (h : l.entries.find? (fun e => e.1 == k) = none) : l.get k = (l, none) := by
  unfold LRU.get
  rw [h]

theorem LRU.get_of_find?_some {V : Type} {l : LRU V} {k : Nat} {e : Nat × V}
    (h : l.entries.find? (fun e => e.1 == k) = some e) :
    l.get k = ({ l with entries := e :: l.entries.filter (fun x => x.1 != k) }, some e.2) := by
  unfold LRU.get
  rw [h]

theorem LRU.find?_some_key {V : Type} {l : LRU V} {k : Nat} {e : Nat × V}
    (h : l.entries.find? (fun e => e.1 == k) = some e) : e.1 = k := by
  have := List.find?_some h
  exact beq_iff_eq.mp this

theorem LRU.find?_some_key_mem {V : Type} {l : LRU V} {k : Nat} {e : Nat × V}
    (h : l.entries.find? (fun e => e.1 == k) = some e) : k ∈ l.keys := by
  have hm := List.mem_of_find?_eq_some h
  have := List.mem_map_of_mem Prod.fst hm
  rw [LRU.find?_some_key h] at this
  exact this

theorem LRU.get_fst_mem_iff {V : Type} (l : LRU V) (k a : Nat) :
    a ∈ (l.get k).1.keys ↔ a ∈ l.keys := by
  cases hf : l.entries.find? (fun e => e.1 == k) with
  | none => rw [LRU.get_of_find?_none hf]
  | some e =>
      rw [LRU.get_of_find?_some hf]
      have hek := LRU.find?_some_key hf
      have hkm := LRU.find?_some_key_mem hf
      show a ∈ (e.1 :: (l.entries.filter (fun x => x.1 != k)).map Prod.fst) ↔ _
      rw [keys_filter_ne, hek]
      simp only [List.mem_cons, List.mem_filter, bne_iff_ne]
      constructor
      · rintro (rfl | ⟨ha, -⟩)
        · exact hkm
        · exact ha
      · intro ha
        by_cases hak : a = k
        · exact Or.inl hak
        · exact Or.inr ⟨ha, hak⟩

theorem LRU.get_fst_nodup {V : Type} (l : LRU V) (k : Nat) (hnd : l.keys.Nodup) :
    (l.get k).1.keys.Nodup := by
  cases hf : l.entries.find? (fun e => e.1 == k) with
  | none => rw [LRU.get_of_find?_none hf]; exact hnd
  | some e =>
      rw [LRU.get_of_find?_some hf]
      have hek := LRU.find?_some_key hf
      show (e.1 :: (l.entries.filter (fun x => x.1 != k)).map Prod.fst).Nodup
      rw [keys_filter_ne, hek]
      refine List.Nodup.cons ?_ (hnd.filter _)
      intro hk
      rcases List.mem_filter.mp hk with ⟨-, hne⟩
      simp at hne

theorem LRU.get_fst_size {V : Type} (l : LRU V) (k : Nat) : (l.get k).1.size = l.size := by
  cases hf : l.entries.find? (fun e => e.1 == k) with
  | none => rw [LRU.get_of_find?_none hf]
  | some e => rw [LRU.get_of_find?_some hf]

/-! ### Equations for the ARC ghost-wiring helpers -/

theorem ARCCache.t1RemoveOldest_eq_none {c : ARCCache} {l' : LRU Nat}
    (h : c.t1.removeOldestE = (l', none)) : c.t1RemoveOldest = { c with t1 := l' } := by
  unfold ARCCache.t1RemoveOldest
  rw [h]

theorem ARCCache.t1RemoveOldest_eq_some {c : ARCCache} {l' : LRU Nat} {e : Nat × Nat}
    (h : c.t1.removeOldestE = (l', some e)) :
    c.t1RemoveOldest = { c with t1 := l', b1 := c.b1.add e.1 () } := by
  unfold ARCCache.t1RemoveOldest
  rw [h]

theorem ARCCache.t2RemoveOldest_eq_none {c : ARCCache} {l' : LRU Nat}
    (h : c.t2.removeOldestE = (l', none)) : c.t2RemoveOldest = { c with t2 := l' } := by
  unfold ARCCache.t2RemoveOldest
  rw [h]

theorem ARCCache.t2RemoveOldest_eq_some {c : ARCCache} {l' : LRU Nat} {e : Nat × Nat}
    (h : c.t2.removeOldestE = (l', some e)) :
    c.t2RemoveOldest = { c with t2 := l', b2 := c.b2.add e.1 () } := by
  unfold ARCCache.t2RemoveOldest
  rw [h]

theorem ARCCache.t1Add_eq_none {c : ARCCache} {k v : Nat} {l' : LRU Nat}
    (h : c.t1.addE k v = (l', none)) : c.t1Add k v = { c with t1 := l' } := by
  unfold ARCCache.t1Add
  rw [h]

theorem ARCCache.t1Add_eq_some {c : ARCCache} {k v : Nat} {l' : LRU Nat} {e : Nat × Nat}
    (h : c.t1.addE k v = (l', some e)) :
    c.t1Add k v = { c with t1 := l', b1 := c.b1.add e.1 () } := by
  unfold ARCCache.t1Add
  rw [h]

theorem ARCCache.t2Add_eq_none {c : ARCCache} {k v : Nat} {l' : LRU Nat}
    (h : c.t2.addE k v = (l', none)) : c.t2Add k v = { c with t2 := l' } := by
  unfold ARCCache.t2Add
  rw [h]

theorem ARCCache.t2Add_eq_some {c : ARCCache} {k v : Nat} {l' : LRU Nat} {e : Nat × Nat}
    (h : c.t2.addE k v = (l', some e)) :
    c.t2Add k v = { c with t2 := l', b2 := c.b2.add e.1 () } := by
  unfold ARCCache.t2Add
  rw [h]

/-! ### Invariant preservation by the ghost-wiring helpers -/

theorem ARCCache.Inv_t1RemoveOldest {c : ARCCache} (h : c.Inv) : c.t1RemoveOldest.Inv := by
  obtain ⟨n1, n2, nb1, nb2, d12, d1b1, d1b2, d2b1, d2b2, db1b2⟩ := h
  rcases hr : c.t1.removeOldestE with ⟨l', ev⟩
  cases ev with
  | none =>
      rw [ARCCache.t1RemoveOldest_eq_none hr, LRU.removeOldestE_none hr]
      exact ⟨n1, n2, nb1, nb2, d12, d1b1, d1b2, d2b1, d2b2, db1b2⟩
  | some e =>
      rw [ARCCache.t1RemoveOldest_eq_some hr]
      have hsub : ∀ a, a ∈ l'.keys → a ∈ c.t1.keys := by
        intro a ha
        rw [LRU.removeOldestE_some_keys hr] at ha
        exact (List.dropLast_sublist _).subset ha
      have hemem : e.1 ∈ c.t1.keys := LRU.removeOldestE_some_mem hr
      have henot : e.1 ∉ l'.keys := LRU.removeOldestE_some_not_mem hr n1
      have hb1 : ∀ a, a ∈ (c.b1.add e.1 ()).keys → a = e.1 ∨ a ∈ c.b1.keys :=
        fun a ha => LRU.mem_keys_add ha
      refine ⟨?_, n2, LRU.nodup_keys_add nb1, nb2, ?_, ?_, ?_, ?_, d2b2, ?_⟩
      · show l'.keys.Nodup
        rw [LRU.removeOldestE_some_keys hr]
        exact (List.dropLast_sublist _).nodup n1
      · intro a ha hb
        exact d12 (hsub a ha) hb
      · intro a ha hb
        rcases hb1 a hb with rfl | hb
        · exact henot ha
        · exact d1b1 (hsub a ha) hb
      · intro a ha hb
        exact d1b2 (hsub a ha) hb
      · intro a ha hb
        rcases hb1 a hb with rfl | hb
        · exact d12 hemem ha
        · exact d2b1 ha hb
      · intro a ha hb
        rcases hb1 a ha with rfl | ha
        · exact d1b2 hemem hb
        · exact db1b2 ha hb

theorem ARCCache.Inv_t2RemoveOldest {c : ARCCache} (h : c.Inv) : c.t2RemoveOldest.Inv := by
  obtain ⟨n1, n2, nb1, nb2, d12, d1b1, d1b2, d2b1, d2b2, db1b2⟩ := h
  rcases hr : c.t2.removeOldestE with ⟨l', ev⟩
  cases ev with
  | none =>
      rw [ARCCache.t2RemoveOldest_eq_none hr, LRU.removeOldestE_none hr]
      exact ⟨n1, n2, nb1, nb2, d12, d1b1, d1b2, d2b1, d2b2, db1b2⟩
  | some e =>
      rw [ARCCache.t2RemoveOldest_eq_some hr]
      have hsub : ∀ a, a ∈ l'.keys → a ∈ c.t2.keys := by
        intro a ha
        rw [LRU.removeOldestE_some_keys hr] at ha
        exact (List.dropLast_sublist _).subset ha
      have hemem : e.1 ∈ c.t2.keys := LRU.removeOldestE_some_mem hr
      have henot : e.1 ∉ l'.keys := LRU.removeOldestE_some_not_mem hr n2
      have hb2 : ∀ a, a ∈ (c.b2.add e.1 ()).keys → a = e.1 ∨ a ∈ c.b2.keys :=
        fun a ha => LRU.mem_keys_add ha
      refine ⟨n1, ?_, nb1, LRU.nodup_keys_add nb2, ?_, d1b1, ?_, ?_, ?_, ?_⟩
      · show l'.keys.Nodup
        rw [LRU.removeOldestE_some_keys hr]
        exact (List.dropLast_sublist _).nodup n2
      · intro a ha hb
        exact d12 ha (hsub a hb)
      · intro a ha hb
        rcases hb2 a hb with rfl | hb
        · exact d12 ha hemem
        · exact d1b2 ha hb
      · intro a ha hb
        exact d2b1 (hsub a ha) hb
      · intro a ha hb
        rcases hb2 a hb with rfl | hb
        · exact henot ha
        · exact d2b2 (hsub a ha) hb
      · intro a ha hb
        rcases hb2 a hb with rfl | hb
        · exact d2b1 hemem ha
        · exact db1b2 ha hb

theorem ARCCache.replace_eq (c : ARCCache) (k : Nat) :
    c.replace k =
      if c.t1.len > 0 ∧ (c.t1.len > c.p ∨ c.t1.len = c.p ∧ c.b2.contains k = true) then
        c.t1RemoveOldest
      else
        c.t2RemoveOldest := rfl

theorem ARCCache.Inv_replace {c : ARCCache} (h : c.Inv) (k : Nat) : (c.replace k).Inv := by
  rw [ARCCache.replace_eq]
  split
  · exact ARCCache.Inv_t1RemoveOldest h
  · exact ARCCache.Inv_t2RemoveOldest h

theorem ARCCache.Inv_t1Add {c : ARCCache} {k : Nat} (v : Nat) (h : c.Inv)
    (h2 : k ∉ c.t2.keys) (hb1 : k ∉ c.b1.keys) (hb2 : k ∉ c.b2.keys) :
    (c.t1Add k v).Inv := by
  obtain ⟨n1, n2, nb1, nb2, d12, d1b1, d1b2, d2b1, d2b2, db1b2⟩ := h
  rcases hr : c.t1.addE k v with ⟨l', ev⟩
  have hmem : ∀ a, a ∈ l'.keys → a = k ∨ a ∈ c.t1.keys := fun a ha => LRU.addE_fst_mem hr ha
  have hnd : l'.keys.Nodup := LRU.addE_fst_nodup hr n1
  cases ev with
  | none =>
      rw [ARCCache.t1Add_eq_none hr]
      refine ⟨hnd, n2, nb1, nb2, ?_, ?_, ?_, d2b1, d2b2, db1b2⟩
      · intro a ha hb
        rcases hmem a ha with rfl | ha
        · exact h2 hb
        · exact d12 ha hb
      · intro a ha hb
        rcases hmem a ha with rfl | ha
        · exact hb1 hb
        · exact d1b1 ha hb
      · intro a ha hb
        rcases hmem a ha with rfl | ha
        · exact hb2 hb
        · exact d1b2 ha hb
  | some e =>
      rw [ARCCache.t1Add_eq_some hr]
      have hesrc : e.1 = k ∨ e.1 ∈ c.t1.keys := LRU.addE_some_mem hr
      have henot : e.1 ∉ l'.keys := LRU.addE_some_not_mem hr n1
      have hb1m : ∀ a, a ∈ (c.b1.add e.1 ()).keys → a = e.1 ∨ a ∈ c.b1.keys :=
        fun a ha => LRU.mem_keys_add ha
      refine ⟨hnd, n2, LRU.nodup_keys_add nb1, nb2, ?_, ?_, ?_, ?_, d2b2, ?_⟩
      · intro a ha hb
        rcases hmem a ha with rfl | ha
        · exact h2 hb
        · exact d12 ha hb
      · intro a ha hb
        rcases hb1m a hb with rfl | hb
        · exact henot ha
        · rcases hmem a ha with rfl | ha
          · exact hb1 hb
          · exact d1b1 ha hb
      · intro a ha hb
        rcases hmem a ha with rfl | ha
        · exact hb2 hb
        · exact d1b2 ha hb
      · intro a ha hb
        rcases hb1m a hb with rfl | hb
        · rcases hesrc with rfl | he
          · exact h2 ha
          · exact d12 he ha
        · exact d2b1 ha hb
      · intro a ha hb
        rcases hb1m a ha with rfl | ha
        · rcases hesrc with rfl | he
          · exact hb2 hb
          · exact d1b2 he hb
        · exact db1b2 ha hb

theorem ARCCache.Inv_t2Add {c : ARCCache} {k : Nat} (v : Nat) (h : c.Inv)
    (h1 : k ∉ c.t1.keys) (hb1 : k ∉ c.b1.keys) (hb2 : k ∉ c.b2.keys) :
    (c.t2Add k v).Inv := by
  obtain ⟨n1, n2, nb1, nb2, d12, d1b1, d1b2, d2b1, d2b2, db1b2⟩ := h
  rcases hr : c.t2.addE k v with ⟨l', ev⟩
  have hmem : ∀ a, a ∈ l'.keys → a = k ∨ a ∈ c.t2.keys := fun a ha => LRU.addE_fst_mem hr ha
  have hnd : l'.keys.Nodup := LRU.addE_fst_nodup hr n2
  cases ev with
  | none =>
      rw [ARCCache.t2Add_eq_none hr]
      refine ⟨n1, hnd, nb1, nb2, ?_, d1b1, d1b2, ?_, ?_, db1b2⟩
      · intro a ha hb
        rcases hmem a hb with rfl | hb
        · exact h1 ha
        · exact d12 ha hb
      · intro a ha hb
        rcases hmem a ha with rfl | ha
        · exact hb1 hb
        · exact d2b1 ha hb
      · intro a ha hb
        rcases hmem a ha with rfl | ha
        · exact hb2 hb
        · exact d2b2 ha hb
  | some e =>
      rw [ARCCache.t2Add_eq_some hr]
      have hesrc : e.1 = k ∨ e.1 ∈ c.t2.keys := LRU.addE_some_mem hr
      have henot : e.1 ∉ l'.keys := LRU.addE_some_not_mem hr n2
      have hb2m : ∀ a, a ∈ (c.b2.add e.1 ()).keys → a = e.1 ∨ a ∈ c.b2.keys :=
        fun a ha => LRU.mem_keys_add ha
      refine ⟨n1, hnd, nb1, LRU.nodup_keys_add nb2, ?_, d1b1, ?_, ?_, ?_, ?_⟩
      · intro a ha hb
        rcases hmem a hb with rfl | hb
        · exact h1 ha
        · exact d12 ha hb
      · intro a ha hb
        rcases hb2m a hb with rfl | hb
        · rcases hesrc with rfl | he
          · exact h1 ha
          · exact d12 ha he
        · exact d1b2 ha hb
      · intro a ha hb
        rcases hmem a ha with rfl | ha
        · exact hb1 hb
        · exact d2b1 ha hb
      · intro a ha hb
        rcases hb2m a hb with rfl | hb
        · exact henot ha
        · rcases hmem a ha with rfl | ha
          · exact hb2 hb
          · exact d2b2 ha hb
      · intro a ha hb
        rcases hb2m a hb with rfl | hb
        · rcases hesrc with rfl | he
          · exact hb1 ha
          · exact d2b1 he ha
        · exact db1b2 ha hb

/-! ### Field and membership tracking through the helpers -/

theorem ARCCache.t1RemoveOldest_t2 (c : ARCCache) : c.t1RemoveOldest.t2 = c.t2 := by
  rcases hr : c.t1.removeOldestE with ⟨l', ev⟩
  cases ev with
  | none => rw [ARCCache.t1RemoveOldest_eq_none hr]
  | some e => rw [ARCCache.t1RemoveOldest_eq_some hr]

theorem ARCCache.t1RemoveOldest_b2 (c : ARCCache) : c.t1RemoveOldest.b2 = c.b2 := by
  rcases hr : c.t1.removeOldestE with ⟨l', ev⟩
  cases ev with
  | none => rw [ARCCache.t1RemoveOldest_eq_none hr]
  | some e => rw [ARCCache.t1RemoveOldest_eq_some hr]

theorem ARCCache.t1RemoveOldest_p (c : ARCCache) : c.t1RemoveOldest.p = c.p := by
  rcases hr : c.t1.removeOldestE with ⟨l', ev⟩
  cases ev with
  | none => rw [ARCCache.t1RemoveOldest_eq_none hr]
  | some e => rw [ARCCache.t1RemoveOldest_eq_some hr]

theorem ARCCache.t1RemoveOldest_size (c : ARCCache) : c.t1RemoveOldest.size = c.size := by
  rcases hr : c.t1.removeOldestE with ⟨l', ev⟩
  cases ev with
  | none => rw [ARCCache.t1RemoveOldest_eq_none hr]
  | some e => rw [ARCCache.t1RemoveOldest_eq_some hr]

theorem ARCCache.t1RemoveOldest_t1_size (c : ARCCache) :
    c.t1RemoveOldest.t1.size = c.t1.size := by
  rcases hr : c.t1.removeOldestE with ⟨l', ev⟩
  cases ev with
  | none => rw [ARCCache.t1RemoveOldest_eq_none hr, LRU.removeOldestE_none hr]
  | some e =>
      rw [ARCCache.t1RemoveOldest_eq_some hr]
      exact (LRU.removeOldestE_some hr).2.2

theorem ARCCache.t1RemoveOldest_mem_t1 {c : ARCCache} {a : Nat}
    (h : a ∈ c.t1RemoveOldest.t1.keys) : a ∈ c.t1.keys := by
  rcases hr : c.t1.removeOldestE with ⟨l', ev⟩
  cases ev with
  | none => rw [ARCCache.t1RemoveOldest_eq_none hr, LRU.removeOldestE_none hr] at h; exact h
  | some e =>
      rw [ARCCache.t1RemoveOldest_eq_some hr] at h
      have h2 : a ∈ l'.keys := h
      rw [LRU.removeOldestE_some_keys hr] at h2
      exact (List.dropLast_sublist _).subset h2

theorem ARCCache.t1RemoveOldest_mem_b1 {c : ARCCache} {a : Nat}
    (h : a ∈ c.t1RemoveOldest.b1.keys) : a ∈ c.b1.keys ∨ a ∈ c.t1.keys := by
  rcases hr : c.t1.removeOldestE with ⟨l', ev⟩
  cases ev with
  | none =>
      rw [ARCCache.t1RemoveOldest_eq_none hr] at h
      exact Or.inl h
  | some e =>
      rw [ARCCache.t1RemoveOldest_eq_some hr] at h
      have h2 : a ∈ (c.b1.add e.1 ()).keys := h
      rcases LRU.mem_keys_add h2 with rfl | h3
      · exact Or.inr (LRU.removeOldestE_some_mem hr)
      · exact Or.inl h3

theorem ARCCache.t2RemoveOldest_t1 (c : ARCCache) : c.t2RemoveOldest.t1 = c.t1 := by
  rcases hr : c.t2.removeOldestE with ⟨l', ev⟩
  cases ev with
  | none => rw [ARCCache.t2RemoveOldest_eq_none hr]
  | some e => rw [ARCCache.t2RemoveOldest_eq_some hr]

theorem ARCCache.t2RemoveOldest_b1 (c : ARCCache) : c.t2RemoveOldest.b1 = c.b1 := by
  rcases hr : c.t2.removeOldestE with ⟨l', ev⟩
  cases ev with
  | none => rw [ARCCache.t2RemoveOldest_eq_none hr]
  | some e => rw [ARCCache.t2RemoveOldest_eq_some hr]

theorem ARCCache.t2RemoveOldest_p (c : ARCCache) : c.t2RemoveOldest.p = c.p := by
  rcases hr : c.t2.removeOldestE with ⟨l', ev⟩
  cases ev with
  | none => rw [ARCCache.t2RemoveOldest_eq_none hr]
  | some e => rw [ARCCache.t2RemoveOldest_eq_some hr]

theorem ARCCache.t2RemoveOldest_size (c : ARCCache) : c.t2RemoveOldest.size = c.size := by
  rcases hr : c.t2.removeOldestE with ⟨l', ev⟩
  cases ev with
  | none => rw [ARCCache.t2RemoveOldest_eq_none hr]
  | some e => rw [ARCCache.t2RemoveOldest_eq_some hr]

theorem ARCCache.t2RemoveOldest_t2_size (c : ARCCache) :
    c.t2RemoveOldest.t2.size = c.t2.size := by
  rcases hr : c.t2.removeOldestE with ⟨l', ev⟩
  cases ev with
  | none => rw [ARCCache.t2RemoveOldest_eq_none hr, LRU.removeOldestE_none hr]
  | some e =>
      rw [ARCCache.t2RemoveOldest_eq_some hr]
      exact (LRU.removeOldestE_some hr).2.2

theorem ARCCache.t2RemoveOldest_mem_t2 {c : ARCCache} {a : Nat}
    (h : a ∈ c.t2RemoveOldest.t2.keys) : a ∈ c.t2.keys := by
  rcases hr : c.t2.removeOldestE with ⟨l', ev⟩
  cases ev with
  | none => rw [ARCCache.t2RemoveOldest_eq_none hr, LRU.removeOldestE_none hr] at h; exact h
  | some e =>
      rw [ARCCache.t2RemoveOldest_eq_some hr] at h
      have h2 : a ∈ l'.keys := h
      rw [LRU.removeOldestE_some_keys hr] at h2
      exact (List.dropLast_sublist _).subset h2

theorem ARCCache.t2RemoveOldest_mem_b2 {c : ARCCache} {a : Nat}
    (h : a ∈ c.t2RemoveOldest.b2.keys) : a ∈ c.b2.keys ∨ a ∈ c.t2.keys := by
  rcases hr : c.t2.removeOldestE with ⟨l', ev⟩
  cases ev with
  | none =>
      rw [ARCCache.t2RemoveOldest_eq_none hr] at h
      exact Or.inl h
  | some e =>
      rw [ARCCache.t2RemoveOldest_eq_some hr] at h
      have h2 : a ∈ (c.b2.add e.1 ()).keys := h
      rcases LRU.mem_keys_add h2 with rfl | h3
      · exact Or.inr (LRU.removeOldestE_some_mem hr)
      · exact Or.inl h3

theorem ARCCache.replace_mem_t1 {c : ARCCache} {k a : Nat}
    (h : a ∈ (c.replace k).t1.keys) : a ∈ c.t1.keys := by
  rw [ARCCache.replace_eq] at h
  split at h
  · exact ARCCache.t1RemoveOldest_mem_t1 h
  · rw [ARCCache.t2RemoveOldest_t1] at h
    exact h

theorem ARCCache.replace_mem_t2 {c : ARCCache} {k a : Nat}
    (h : a ∈ (c.replace k).t2.keys) : a ∈ c.t2.keys := by
  rw [ARCCache.replace_eq] at h
  split at h
  · rw [ARCCache.t1RemoveOldest_t2] at h
    exact h
  · exact ARCCache.t2RemoveOldest_mem_t2 h

theorem ARCCache.replace_mem_b1 {c : ARCCache} {k a : Nat}
    (h : a ∈ (c.replace k).b1.keys) : a ∈ c.b1.keys ∨ a ∈ c.t1.keys := by
  rw [ARCCache.replace_eq] at h
  split at h
  · exact ARCCache.t1RemoveOldest_mem_b1 h
  · rw [ARCCache.t2RemoveOldest_b1] at h
    exact Or.inl h

theorem ARCCache.replace_mem_b2 {c : ARCCache} {k a : Nat}
    (h : a ∈ (c.replace k).b2.keys) : a ∈ c.b2.keys ∨ a ∈ c.t2.keys := by
  rw [ARCCache.replace_eq] at h
  split at h
  · rw [ARCCache.t1RemoveOldest_b2] at h
    exact Or.inl h
  · exact ARCCache.t2RemoveOldest_mem_b2 h

theorem ARCCache.replace_p (c : ARCCache) (k : Nat) : (c.replace k).p = c.p := by
  rw [ARCCache.replace_eq]
  split
  · exact ARCCache.t1RemoveOldest_p c
  · exact ARCCache.t2RemoveOldest_p c

theorem ARCCache.replace_size (c : ARCCache) (k : Nat) : (c.replace k).size = c.size := by
  rw [ARCCache.replace_eq]
  split
  · exact ARCCache.t1RemoveOldest_size c
  · exact ARCCache.t2RemoveOldest_size c

theorem ARCCache.FreshFor_replace {c : ARCCache} {k k2 : Nat}
    (h : c.FreshFor k2) : ((c.replace k).FreshFor k2) := by
  obtain ⟨h1, h2, h3, h4⟩ := h
  refine ⟨?_, ?_, ?_, ?_⟩
  · intro hm
    exact h1 (ARCCache.replace_mem_t1 hm)
  · intro hm
    exact h2 (ARCCache.replace_mem_t2 hm)
  · intro hm
    rcases ARCCache.replace_mem_b1 hm with hm | hm
    · exact h3 hm
    · exact h1 hm
  · intro hm
    rcases ARCCache.replace_mem_b2 hm with hm | hm
    · exact h4 hm
    · exact h2 hm

/-! ### Invariant preservation by the `Add` branches -/

theorem ARCCache.Inv_ghostHitB1 {c : ARCCache} {k : Nat} (v : Nat) (h : c.Inv)
    (ht1 : k ∉ c.t1.keys) (ht2 : k ∉ c.t2.keys) (hb2 : k ∉ c.b2.keys) :
    (({ c.replace k with b1 := (c.replace k).b1.remove k } : ARCCache).t2Add k v).Inv := by
  have hI2 : (c.replace k).Inv := ARCCache.Inv_replace h k
  have hI3 : ({ c.replace k with b1 := (c.replace k).b1.remove k } : ARCCache).Inv := by
    obtain ⟨n1, n2, nb1, nb2, d12, d1b1, d1b2, d2b1, d2b2, db1b2⟩ := hI2
    refine ⟨n1, n2, LRU.nodup_keys_remove k nb1, nb2, d12, ?_, d1b2, ?_, d2b2, ?_⟩
    · intro a ha hb
      exact d1b1 ha (LRU.mem_keys_remove.mp hb).1
    · intro a ha hb
      exact d2b1 ha (LRU.mem_keys_remove.mp hb).1
    · intro a ha hb
      exact db1b2 (LRU.mem_keys_remove.mp ha).1 hb
  refine ARCCache.Inv_t2Add v hI3 ?_ ?_ ?_
  · show k ∉ (c.replace k).t1.keys
    intro hm
    exact ht1 (ARCCache.replace_mem_t1 hm)
  · show k ∉ ((c.replace k).b1.remove k).keys
    intro hm
    exact (LRU.mem_keys_remove.mp hm).2 rfl
  · show k ∉ (c.replace k).b2.keys
    intro hm
    rcases ARCCache.replace_mem_b2 hm with hm | hm
    · exact hb2 hm
    · exact ht2 hm

theorem ARCCache.Inv_ghostHitB2 {c : ARCCache} {k : Nat} (v : Nat) (h : c.Inv)
    (ht1 : k ∉ c.t1.keys) (ht2 : k ∉ c.t2.keys) (hb1 : k ∉ c.b1.keys) :
    (({ c.replace k with b2 := (c.replace k).b2.remove k } : ARCCache).t2Add k v).Inv := by
  have hI2 : (c.replace k).Inv := ARCCache.Inv_replace h k
  have hI3 : ({ c.replace k with b2 := (c.replace k).b2.remove k } : ARCCache).Inv := by
    obtain ⟨n1, n2, nb1, nb2, d12, d1b1, d1b2, d2b1, d2b2, db1b2⟩ := hI2
    refine ⟨n1, n2, nb1, LRU.nodup_keys_remove k nb2, d12, d1b1, ?_, d2b1, ?_, ?_⟩
    · intro a ha hb
      exact d1b2 ha (LRU.mem_keys_remove.mp hb).1
    · intro a ha hb
      exact d2b2 ha (LRU.mem_keys_remove.mp hb).1
    · intro a ha hb
      exact db1b2 ha (LRU.mem_keys_remove.mp hb).1
  refine ARCCache.Inv_t2Add v hI3 ?_ ?_ ?_
  · show k ∉ (c.replace k).t1.keys
    intro hm
    exact ht1 (ARCCache.replace_mem_t1 hm)
  · show k ∉ (c.replace k).b1.keys
    intro hm
    rcases ARCCache.replace_mem_b1 hm with hm | hm
    · exact hb1 hm
    · exact ht1 hm
  · show k ∉ ((c.replace k).b2.remove k).keys
    intro hm
    exact (LRU.mem_keys_remove.mp hm).2 rfl

theorem ARCCache.Inv_addB1 {c : ARCCache} {k : Nat} (v : Nat) (h : c.Inv)
    (ht1 : k ∉ c.t1.keys) (ht2 : k ∉ c.t2.keys) (hb2 : k ∉ c.b2.keys) :
    (c.addB1 k v).Inv := by
  show (({ ARCCache.replace _ k with
            b1 := (ARCCache.replace _ k).b1.remove k } : ARCCache).t2Add k v).Inv
  exact ARCCache.Inv_ghostHitB1 v h ht1 ht2 hb2

theorem ARCCache.Inv_addB2 {c : ARCCache} {k : Nat} (v : Nat) (h : c.Inv)
    (ht1 : k ∉ c.t1.keys) (ht2 : k ∉ c.t2.keys) (hb1 : k ∉ c.b1.keys) :
    (c.addB2 k v).Inv := by
  show (({ ARCCache.replace _ k with
            b2 := (ARCCache.replace _ k).b2.remove k } : ARCCache).t2Add k v).Inv
  exact ARCCache.Inv_ghostHitB2 v h ht1 ht2 hb1

theorem ARCCache.Inv_dropB1 {c : ARCCache} (h : c.Inv) :
    ({ c with b1 := c.b1.removeOldest } : ARCCache).Inv := by
  obtain ⟨n1, n2, nb1, nb2, d12, d1b1, d1b2, d2b1, d2b2, db1b2⟩ := h
  have hsub : ∀ a, a ∈ c.b1.removeOldest.keys → a ∈ c.b1.keys := by
    intro a ha
    exact LRU.removeOldestE_fst_keys_subset _ ha
  refine ⟨n1, n2, ?_, nb2, d12, ?_, d1b2, ?_, d2b2, ?_⟩
  · exact LRU.removeOldestE_fst_nodup _ nb1
  · intro a ha hb
    exact d1b1 ha (hsub a hb)
  · intro a ha hb
    exact d2b1 ha (hsub a hb)
  · intro a ha hb
    exact db1b2 (hsub a ha) hb

theorem ARCCache.Inv_dropB2 {c : ARCCache} (h : c.Inv) :
    ({ c with b2 := c.b2.removeOldest } : ARCCache).Inv := by
  obtain ⟨n1, n2, nb1, nb2, d12, d1b1, d1b2, d2b1, d2b2, db1b2⟩ := h
  have hsub : ∀ a, a ∈ c.b2.removeOldest.keys → a ∈ c.b2.keys := by
    intro a ha
    exact LRU.removeOldestE_fst_keys_subset _ ha
  refine ⟨n1, n2, nb1, ?_, d12, d1b1, ?_, d2b1, ?_, ?_⟩
  · exact LRU.removeOldestE_fst_nodup _ nb2
  · intro a ha hb
    exact d1b2 ha (hsub a hb)
  · intro a ha hb
    exact d2b2 ha (hsub a hb)
  · intro a ha hb
    exact db1b2 ha (hsub a hb)

theorem ARCCache.FreshFor_t1RemoveOldest {c : ARCCache} {k : Nat}
    (h : c.FreshFor k) : c.t1RemoveOldest.FreshFor k := by
  obtain ⟨h1, h2, h3, h4⟩ := h
  refine ⟨?_, ?_, ?_, ?_⟩
  · intro hm
    exact h1 (ARCCache.t1RemoveOldest_mem_t1 hm)
  · rw [ARCCache.t1RemoveOldest_t2]
    exact h2
  · intro hm
    rcases ARCCache.t1RemoveOldest_mem_b1 hm with hm | hm
    · exact h3 hm
    · exact h1 hm
  · rw [ARCCache.t1RemoveOldest_b2]
    exact h4

theorem ARCCache.FreshFor_dropB1 {c : ARCCache} {k : Nat} (h : c.FreshFor k) :
    ({ c with b1 := c.b1.removeOldest } : ARCCache).FreshFor k := by
  obtain ⟨h1, h2, h3, h4⟩ := h
  refine ⟨h1, h2, ?_, h4⟩
  intro hm
  exact h3 (LRU.removeOldestE_fst_keys_subset _ hm)

theorem ARCCache.FreshFor_dropB2 {c : ARCCache} {k : Nat} (h : c.FreshFor k) :
    ({ c with b2 := c.b2.removeOldest } : ARCCache).FreshFor k := by
  obtain ⟨h1, h2, h3, h4⟩ := h
  refine ⟨h1, h2, h3, ?_⟩
  intro hm
  exact h4 (LRU.removeOldestE_fst_keys_subset _ hm)

theorem ARCCache.Inv_addMiss {c : ARCCache} {k : Nat} (v : Nat) (h : c.Inv)
    (hf : c.FreshFor k) : (c.addMiss k v).Inv := by
  unfold ARCCache.addMiss
  have main : ∀ c1 : ARCCache, c1.Inv → c1.FreshFor k → (c1.t1Add k v).Inv := by
    intro c1 h1 hf1
    obtain ⟨f1, f2, f3, f4⟩ := hf1
    exact ARCCache.Inv_t1Add v h1 f2 f3 f4
  apply main
  · split
    · split
      · exact ARCCache.Inv_t1RemoveOldest h
      · exact ARCCache.Inv_replace (ARCCache.Inv_dropB1 h) k
    · split
      · split
        · exact ARCCache.Inv_replace (ARCCache.Inv_dropB2 h) k
        · exact ARCCache.Inv_replace h k
      · exact h
  · split
    · split
      · exact ARCCache.FreshFor_t1RemoveOldest hf
      · exact ARCCache.FreshFor_replace (ARCCache.FreshFor_dropB1 hf)
    · split
      · split
        · exact ARCCache.FreshFor_replace (ARCCache.FreshFor_dropB2 hf)
        · exact ARCCache.FreshFor_replace hf
      · exact hf

/-! ### Invariant preservation by the public operations -/

theorem ARCCache.contains_false_of_not_true {b : Bool} (h : ¬b = true) : b = false := by
  cases b
  · rfl
  · exact absurd rfl h

theorem ARCCache.Inv_Add {c : ARCCache} (h : c.Inv) (k v : Nat) : (c.Add k v).Inv := by
  unfold ARCCache.Add
  by_cases h1 : c.t1.contains k = true
  · rw [if_pos h1]
    have hk1 : k ∈ c.t1.keys := LRU.contains_iff_mem.mp h1
    obtain ⟨n1, n2, nb1, nb2, d12, d1b1, d1b2, d2b1, d2b2, db1b2⟩ := h
    have hI' : ({ c with t1 := c.t1.remove k } : ARCCache).Inv := by
      refine ⟨LRU.nodup_keys_remove k n1, n2, nb1, nb2, ?_, ?_, ?_, d2b1, d2b2, db1b2⟩
      · intro a ha hb
        exact d12 (LRU.mem_keys_remove.mp ha).1 hb
      · intro a ha hb
        exact d1b1 (LRU.mem_keys_remove.mp ha).1 hb
      · intro a ha hb
        exact d1b2 (LRU.mem_keys_remove.mp ha).1 hb
    refine ARCCache.Inv_t2Add v hI' ?_ ?_ ?_
    · show k ∉ (c.t1.remove k).keys
      intro hm
      exact (LRU.mem_keys_remove.mp hm).2 rfl
    · show k ∉ c.b1.keys
      intro hm
      exact d1b1 hk1 hm
    · show k ∉ c.b2.keys
      intro hm
      exact d1b2 hk1 hm
  · rw [if_neg h1]
    have h1' : k ∉ c.t1.keys :=
      LRU.contains_eq_false_iff.mp (ARCCache.contains_false_of_not_true h1)
    by_cases h2 : c.t2.contains k = true
    · rw [if_pos h2]
      have hk2 : k ∈ c.t2.keys := LRU.contains_iff_mem.mp h2
      obtain ⟨n1, n2, nb1, nb2, d12, d1b1, d1b2, d2b1, d2b2, db1b2⟩ := h
      refine ARCCache.Inv_t2Add v
        ⟨n1, n2, nb1, nb2, d12, d1b1, d1b2, d2b1, d2b2, db1b2⟩ h1' ?_ ?_
      · intro hm
        exact d2b1 hk2 hm
      · intro hm
        exact d2b2 hk2 hm
    · rw [if_neg h2]
      have h2' : k ∉ c.t2.keys :=
        LRU.contains_eq_false_iff.mp (ARCCache.contains_false_of_not_true h2)
      by_cases h3 : c.b1.contains k = true
      · rw [if_pos h3]
        have hk3 : k ∈ c.b1.keys := LRU.contains_iff_mem.mp h3
        have hb2' : k ∉ c.b2.keys := by
          intro hm
          exact h.2.2.2.2.2.2.2.2.2 hk3 hm
        exact ARCCache.Inv_addB1 v h h1' h2' hb2'
      · rw [if_neg h3]
        have h3' : k ∉ c.b1.keys :=
          LRU.contains_eq_false_iff.mp (ARCCache.contains_false_of_not_true h3)
        by_cases h4 : c.b2.contains k = true
        · rw [if_pos h4]
          exact ARCCache.Inv_addB2 v h h1' h2' h3'
        · rw [if_neg h4]
          have h4' : k ∉ c.b2.keys :=
            LRU.contains_eq_false_iff.mp (ARCCache.contains_false_of_not_true h4)
          exact ARCCache.Inv_addMiss v h ⟨h1', h2', h3', h4'⟩

theorem ARCCache.Inv_Get {c : ARCCache} (h : c.Inv) (k : Nat) : (c.Get k).1.Inv := by
  unfold ARCCache.Get
  cases hp : c.t1.peek k with
  | some v =>
      simp only
      have hk1 : k ∈ c.t1.keys := LRU.mem_of_peek_eq_some hp
      obtain ⟨n1, n2, nb1, nb2, d12, d1b1, d1b2, d2b1, d2b2, db1b2⟩ := h
      have hI' : ({ c with t1 := c.t1.remove k } : ARCCache).Inv := by
        refine ⟨LRU.nodup_keys_remove k n1, n2, nb1, nb2, ?_, ?_, ?_, d2b1, d2b2, db1b2⟩
        · intro a ha hb
          exact d12 (LRU.mem_keys_remove.mp ha).1 hb
        · intro a ha hb
          exact d1b1 (LRU.mem_keys_remove.mp ha).1 hb
        · intro a ha hb
          exact d1b2 (LRU.mem_keys_remove.mp ha).1 hb
      refine ARCCache.Inv_t2Add v hI' ?_ ?_ ?_
      · show k ∉ (c.t1.remove k).keys
        intro hm
        exact (LRU.mem_keys_remove.mp hm).2 rfl
      · show k ∉ c.b1.keys
        intro hm
        exact d1b1 hk1 hm
      · show k ∉ c.b2.keys
        intro hm
        exact d1b2 hk1 hm
  | none =>
      rcases hg : c.t2.get k with ⟨t2', r⟩
      cases r with
      | some v =>
          simp only
          obtain ⟨n1, n2, nb1, nb2, d12, d1b1, d1b2, d2b1, d2b2, db1b2⟩ := h
          have ht2' : t2' = (c.t2.get k).1 := by
            rw [hg]
          have hmem : ∀ a, a ∈ t2'.keys ↔ a ∈ c.t2.keys := by
            intro a
            rw [ht2']
            exact LRU.get_fst_mem_iff c.t2 k a
          refine ⟨n1, ?_, nb1, nb2, ?_, d1b1, d1b2, ?_, ?_, db1b2⟩
          · rw [ht2']
            exact LRU.get_fst_nodup c.t2 k n2
          · intro a ha hb
            exact d12 ha ((hmem a).mp hb)
          · intro a ha hb
            exact d2b1 ((hmem a).mp ha) hb
          · intro a ha hb
            exact d2b2 ((hmem a).mp ha) hb
      | none =>
          simp only
          exact h

theorem ARCCache.Inv_Remove {c : ARCCache} (h : c.Inv) (k : Nat) : (c.Remove k).Inv := by
  obtain ⟨n1, n2, nb1, nb2, d12, d1b1, d1b2, d2b1, d2b2, db1b2⟩ := h
  refine ⟨LRU.nodup_keys_remove k n1, LRU.nodup_keys_remove k n2,
    LRU.nodup_keys_remove k nb1, LRU.nodup_keys_remove k nb2, ?_, ?_, ?_, ?_, ?_, ?_⟩
  · intro a ha hb
    exact d12 (LRU.mem_keys_remove.mp ha).1 (LRU.mem_keys_remove.mp hb).1
  · intro a ha hb
    exact d1b1 (LRU.mem_keys_remove.mp ha).1 (LRU.mem_keys_remove.mp hb).1
  · intro a ha hb
    exact d1b2 (LRU.mem_keys_remove.mp ha).1 (LRU.mem_keys_remove.mp hb).1
  · intro a ha hb
    exact d2b1 (LRU.mem_keys_remove.mp ha).1 (LRU.mem_keys_remove.mp hb).1
  · intro a ha hb
    exact d2b2 (LRU.mem_keys_remove.mp ha).1 (LRU.mem_keys_remove.mp hb).1
  · intro a ha hb
    exact db1b2 (LRU.mem_keys_remove.mp ha).1 (LRU.mem_keys_remove.mp hb).1

theorem ARCCache.Inv_Purge (c : ARCCache) : c.Purge.Inv := by
  refine ⟨List.nodup_nil, List.nodup_nil, List.nodup_nil, List.nodup_nil,
    ?_, ?_, ?_, ?_, ?_, ?_⟩ <;>
    · intro a ha
      cases ha

theorem ARCCache.Inv_applyOp {c : ARCCache} (h : c.Inv) (op : Op) : (applyOp c op).Inv := by
  cases op with
  | add k v => exact ARCCache.Inv_Add h k v
  | get k => exact ARCCache.Inv_Get h k
  | remove k => exact ARCCache.Inv_Remove h k
  | purge => exact ARCCache.Inv_Purge c
  | contains k => exact h
  | peek k => exact h
  | len => exact h
  | keys => exact h

theorem ARCCache.Inv_runOps {c : ARCCache} (h : c.Inv) (ops : List Op) :
    (runOps c ops).Inv := by
  induction ops generalizing c with
  | nil => exact h
  | cons op ops ih => exact ih (ARCCache.Inv_applyOp h op)

theorem ARCCache.Inv_arcInit (n : Nat) : (arcInit n).Inv := by
  refine ⟨List.nodup_nil, List.nodup_nil, List.nodup_nil, List.nodup_nil,
    ?_, ?_, ?_, ?_, ?_, ?_⟩ <;>
    · intro a ha
      cases ha

theorem ARCCache.inCount_le_one_of_Inv {c : ARCCache} (h : c.Inv) (k : Nat) :
    c.inCount k ≤ 1 := by
  obtain ⟨-, -, -, -, d12, d1b1, d1b2, d2b1, d2b2, db1b2⟩ := h
  unfold ARCCache.inCount
  by_cases h1 : c.t1.contains k = true
  · have hk1 := LRU.contains_iff_mem.mp h1
    have e2 : c.t2.contains k = false :=
      LRU.contains_eq_false_iff.mpr (fun hm => d12 hk1 hm)
    have e3 : c.b1.contains k = false :=
      LRU.contains_eq_false_iff.mpr (fun hm => d1b1 hk1 hm)
    have e4 : c.b2.contains k = false :=
      LRU.contains_eq_false_iff.mpr (fun hm => d1b2 hk1 hm)
    rw [h1, e2, e3, e4]
    simp
  · have h1f := ARCCache.contains_false_of_not_true h1
    rw [h1f]
    by_cases h2 : c.t2.contains k = true
    · have hk2 := LRU.contains_iff_mem.mp h2
      have e3 : c.b1.contains k = false :=
        LRU.contains_eq_false_iff.mpr (fun hm => d2b1 hk2 hm)
      have e4 : c.b2.contains k = false :=
        LRU.contains_eq_false_iff.mpr (fun hm => d2b2 hk2 hm)
      rw [h2, e3, e4]
      simp
    · have h2f := ARCCache.contains_false_of_not_true h2
      rw [h2f]
      by_cases h3 : c.b1.contains k = true
      · have hk3 := LRU.contains_iff_mem.mp h3
        have e4 : c.b2.contains k = false :=
          LRU.contains_eq_false_iff.mpr (fun hm => db1b2 hk3 hm)
        rw [h3, e4]
        simp
      · have h3f := ARCCache.contains_false_of_not_true h3
        rw [h3f]
        cases c.b2.contains k <;> simp

theorem NewARC_some {size : Int} {c0 : ARCCache} (h : NewARC size = some c0) :
    c0 = arcInit size.toNat := by
  unfold NewARC at h
  by_cases hs : size ≤ 0
  · rw [if_pos hs] at h
    cases h
  · rw [if_neg hs] at h
    injection h with h
    exact h.symm

/-- C1: starting from any cache produced by `NewARC` and applying any
sequence of public operations (`add`, `get`, `remove`, `purge`,
`contains`, `peek`, `len`, `keys`), every key is present in at most one
of the four lists T1, T2, B1, B2; in particular a key promoted from T1 to
T2 by a `get` hit is not simultaneously in T2 and in the ghost list
B1. -/
theorem C1_exclusive_membership (size : Int) (c0 : ARCCache) (ops : List Op)
    (h0 : NewARC size = some c0) (k : Nat) :
    (runOps c0 ops).inCount k ≤ 1 := by
  have h1 : c0.Inv := by
    rw [NewARC_some h0]
    exact ARCCache.Inv_arcInit _
  exact ARCCache.inCount_le_one_of_Inv (ARCCache.Inv_runOps h1 ops) k

/-- Witness for C1 at a concrete construction, operation sequence (which
promotes key 1 from T1 to T2 via a `get` hit) and key. -/
theorem C1_exclusive_membership_witness :
    (runOps (arcInit 2) [.add 1 10, .add 2 20, .get 1, .add 3 30]).inCount 1 ≤ 1 :=
  C1_exclusive_membership 2 (arcInit 2) [.add 1 10, .add 2 20, .get 1, .add 3 30] rfl 1

/-! ### Entry-level effect of the removeOldest helpers -/

theorem LRU.removeOldestE_none_entries {V : Type} {l l' : LRU V}
    (h : l.removeOldestE = (l', none)) : l.entries = [] := by
  unfold LRU.removeOldestE at h
  cases hg : l.entries.getLast? with
  | none => exact List.getLast?_eq_none_iff.mp hg
  | some e =>
      rw [hg] at h
      simp at h

theorem ARCCache.t1RemoveOldest_t1_entries (c : ARCCache) :
    c.t1RemoveOldest.t1.entries = c.t1.entries.dropLast := by
  rcases hr : c.t1.removeOldestE with ⟨l', ev⟩
  cases ev with
  | none =>
      rw [ARCCache.t1RemoveOldest_eq_none hr, LRU.removeOldestE_none hr]
      rw [LRU.removeOldestE_none_entries hr]
      rfl
  | some e =>
      rw [ARCCache.t1RemoveOldest_eq_some hr]
      exact (LRU.removeOldestE_some hr).1

theorem ARCCache.t2RemoveOldest_t2_entries (c : ARCCache) :
    c.t2RemoveOldest.t2.entries = c.t2.entries.dropLast := by
  rcases hr : c.t2.removeOldestE with ⟨l', ev⟩
  cases ev with
  | none =>
      rw [ARCCache.t2RemoveOldest_eq_none hr, LRU.removeOldestE_none hr]
      rw [LRU.removeOldestE_none_entries hr]
      rfl
  | some e =>
      rw [ARCCache.t2RemoveOldest_eq_some hr]
      exact (LRU.removeOldestE_some hr).1

/-- C4: `replace` evicts T1's oldest entry exactly when T1 is nonempty
and either |T1| exceeds p, or |T1| equals p and the key is currently in
the ghost list B2; in every other case it evicts T2's oldest entry. -/
theorem C4_replace_choice (c : ARCCache) (k : Nat) :
    (0 < c.t1.len ∧ (c.p < c.t1.len ∨ (c.t1.len = c.p ∧ c.b2.contains k = true)) →
      c.replace k = c.t1RemoveOldest ∧
      (c.replace k).t1.entries = c.t1.entries.dropLast ∧
      (c.replace k).t2 = c.t2) ∧
    (¬(0 < c.t1.len ∧ (c.p < c.t1.len ∨ (c.t1.len = c.p ∧ c.b2.contains k = true))) →
      c.replace k = c.t2RemoveOldest ∧
      (c.replace k).t2.entries = c.t2.entries.dropLast ∧
      (c.replace k).t1 = c.t1) := by
  constructor
  · intro h
    rw [ARCCache.replace_eq, if_pos h]
    exact ⟨rfl, ARCCache.t1RemoveOldest_t1_entries c, ARCCache.t1RemoveOldest_t2 c⟩
  · intro h
    rw [ARCCache.replace_eq, if_neg h]
    exact ⟨rfl, ARCCache.t2RemoveOldest_t2_entries c, ARCCache.t2RemoveOldest_t1 c⟩

/-- Witness for C4: a concrete hit of each of the two cases (T1 eviction
at a state with |T1| = 2 > p = 0, and T2 eviction at a state with T1
empty). -/
theorem C4_replace_choice_witness :
    ((runOps (arcInit 2) [.add 1 10, .add 2 20]).replace 5 =
        (runOps (arcInit 2) [.add 1 10, .add 2 20]).t1RemoveOldest ∧
      ((runOps (arcInit 2) [.add 1 10, .add 2 20]).replace 5).t1.entries =
        (runOps (arcInit 2) [.add 1 10, .add 2 20]).t1.entries.dropLast ∧
      ((runOps (arcInit 2) [.add 1 10, .add 2 20]).replace 5).t2 =
        (runOps (arcInit 2) [.add 1 10, .add 2 20]).t2) ∧
    ((arcInit 2).replace 5 = (arcInit 2).t2RemoveOldest ∧
      ((arcInit 2).replace 5).t2.entries = (arcInit 2).t2.entries.dropLast ∧
      ((arcInit 2).replace 5).t1 = (arcInit 2).t1) :=
  ⟨(C4_replace_choice (runOps (arcInit 2) [.add 1 10, .add 2 20]) 5).1 (by decide),
   (C4_replace_choice (arcInit 2) 5).2 (by decide)⟩

/-- C9: `Purge` empties all four lists (so `Len` is 0 and `Contains` is
false for every key, previously present or not) while the adaptive
parameter `p` keeps its pre-purge value. -/
theorem C9_purge_clears (c : ARCCache) :
    c.Purge.Len = 0 ∧ (∀ k, c.Purge.Contains k = false) ∧
    c.Purge.t1.entries = [] ∧ c.Purge.t2.entries = [] ∧
    c.Purge.b1.entries = [] ∧ c.Purge.b2.entries = [] ∧
    c.Purge.p = c.p := by
  refine ⟨rfl, ?_, rfl, rfl, rfl, rfl, rfl⟩
  intro k
  rfl

/-- C6: construction is the only failure point: `New` of lru.go and
`NewARC` of arc.go (through the modelled `internal.NewLRU`) produce a
cache handle exactly when the requested size is positive and an
invalid-capacity error (`none`) exactly when size ≤ 0.  All operations
of a constructed cache are total functions in this embedding, reporting
an absent key through the `Option`/found result. -/
theorem C6_construction_errors :
    ∀ size : Int,
      ((New Nat size).isSome ↔ 0 < size) ∧ (New Nat size = none ↔ size ≤ 0) ∧
      ((NewARC size).isSome ↔ 0 < size) ∧ (NewARC size = none ↔ size ≤ 0) := by
  intro size
  unfold New NewARC
  by_cases h : size ≤ 0
  · rw [if_pos h, if_pos h]
    refine ⟨?_, ?_, ?_, ?_⟩ <;> simp <;> omega
  · rw [if_neg h, if_neg h]
    refine ⟨?_, ?_, ?_, ?_⟩ <;> simp <;> omega

/-- C2 is violated by the code (a capacity-management bug, fixed in later
upstream revisions): at size 1, after `add 0; add 1; add 0` the live size
`Len` is 2 > size; already after `add 0; add 1` we have |T1| + |B1| =
2 > size; and after `add 0; add 0; add 1; add 2` the four lists together
hold 3 > 2 × size keys.  This theorem evaluates the code at those failing
inputs. -/
theorem C2_size_invariant_violated :
    NewARC 1 = some (arcInit 1) ∧
    (runOps (arcInit 1) [.add 0 0, .add 1 1, .add 0 2]).Len = 2 ∧
    (runOps (arcInit 1) [.add 0 0, .add 1 1]).t1.len +
      (runOps (arcInit 1) [.add 0 0, .add 1 1]).b1.len = 2 ∧
    (runOps (arcInit 1) [.add 0 0, .add 0 1, .add 1 2, .add 2 3]).t1.len +
      (runOps (arcInit 1) [.add 0 0, .add 0 1, .add 1 2, .add 2 3]).t2.len +
      (runOps (arcInit 1) [.add 0 0, .add 0 1, .add 1 2, .add 2 3]).b1.len +
      (runOps (arcInit 1) [.add 0 0, .add 0 1, .add 1 2, .add 2 3]).b2.len = 3 := by
  refine ⟨rfl, ?_, ?_, ?_⟩ <;> decide

/-! ### The added key is always live afterwards -/

theorem LRU.peek_cons_self {V : Type} (l : LRU V) (k : Nat) (v : V) (es : List (Nat × V))
    (h : l.entries = (k, v) :: es) : l.peek k = some v := by
  unfold LRU.peek
  rw [h, List.find?_cons_of_pos _ (by simp)]
  rfl

theorem LRU.peek_add_self {V : Type} (l : LRU V) (k : Nat) (v : V) (hs : 1 ≤ l.size) :
    (l.add k v).peek k = some v := by
  unfold LRU.add
  by_cases hc : l.contains k = true
  · rw [LRU.addE_of_contains v hc]
    exact LRU.peek_cons_self _ k v _ rfl
  · have hc' := ARCCache.contains_false_of_not_true hc
    by_cases hlen : l.entries.length + 1 ≤ l.size
    · rw [LRU.addE_of_fits v hc' hlen]
      exact LRU.peek_cons_self _ k v _ rfl
    · rw [LRU.addE_of_full v hc' (by omega)]
      have hne : l.entries ≠ [] := by
        intro he
        rw [he] at hlen
        simp at hlen
        omega
      cases hes : l.entries with
      | nil => exact absurd hes hne
      | cons e es =>
          exact LRU.peek_cons_self _ k v _ (by rw [List.dropLast_cons₂])

theorem ARCCache.t2Add_t1 (c : ARCCache) (k v : Nat) : (c.t2Add k v).t1 = c.t1 := by
  rcases hr : c.t2.addE k v with ⟨l', ev⟩
  cases ev with
  | none => rw [ARCCache.t2Add_eq_none hr]
  | some e => rw [ARCCache.t2Add_eq_some hr]

theorem ARCCache.t2Add_t2 (c : ARCCache) (k v : Nat) : (c.t2Add k v).t2 = c.t2.add k v := by
  rcases hr : c.t2.addE k v with ⟨l', ev⟩
  have h2 : c.t2.add k v = l' := by
    unfold LRU.add
    rw [hr]
  cases ev with
  | none => rw [ARCCache.t2Add_eq_none hr, h2]
  | some e => rw [ARCCache.t2Add_eq_some hr, h2]

theorem ARCCache.t1Add_t1 (c : ARCCache) (k v : Nat) : (c.t1Add k v).t1 = c.t1.add k v := by
  rcases hr : c.t1.addE k v with ⟨l', ev⟩
  have h2 : c.t1.add k v = l' := by
    unfold LRU.add
    rw [hr]
  cases ev with
  | none => rw [ARCCache.t1Add_eq_none hr, h2]
  | some e => rw [ARCCache.t1Add_eq_some hr, h2]

theorem ARCCache.Peek_eq_of_t1_some {c : ARCCache} {k v : Nat}
    (h : c.t1.peek k = some v) : c.Peek k = some v := by
  unfold ARCCache.Peek
  rw [h]

theorem ARCCache.Peek_eq_of_t1_none {c : ARCCache} {k : Nat}
    (h : c.t1.peek k = none) : c.Peek k = c.t2.peek k := by
  unfold ARCCache.Peek
  rw [h]

theorem ARCCache.t2Add_live {c : ARCCache} (k v : Nat)
    (h : c.t1.contains k = false) (hsz : 1 ≤ c.t2.size) :
    (c.t2Add k v).Peek k = some v ∧ (c.t2Add k v).Contains k = true := by
  have ht1 : (c.t2Add k v).t1.peek k = none := by
    rw [ARCCache.t2Add_t1]
    exact LRU.peek_eq_none_iff.mpr (LRU.contains_eq_false_iff.mp h)
  have ht2 : (c.t2Add k v).t2.peek k = some v := by
    rw [ARCCache.t2Add_t2]
    exact LRU.peek_add_self c.t2 k v hsz
  constructor
  · rw [ARCCache.Peek_eq_of_t1_none ht1]
    exact ht2
  · unfold ARCCache.Contains
    have := LRU.contains_iff_mem.mpr (LRU.mem_of_peek_eq_some ht2)
    rw [this, Bool.or_true]

theorem ARCCache.t1Add_live {c : ARCCache} (k v : Nat) (hsz : 1 ≤ c.t1.size) :
    (c.t1Add k v).Peek k = some v ∧ (c.t1Add k v).Contains k = true := by
  have ht1 : (c.t1Add k v).t1.peek k = some v := by
    rw [ARCCache.t1Add_t1]
    exact LRU.peek_add_self c.t1 k v hsz
  constructor
  · exact ARCCache.Peek_eq_of_t1_some ht1
  · unfold ARCCache.Contains
    have := LRU.contains_iff_mem.mpr (LRU.mem_of_peek_eq_some ht1)
    rw [this, Bool.true_or]

theorem ARCCache.replace_t1_size (c : ARCCache) (k : Nat) :
    (c.replace k).t1.size = c.t1.size := by
  rw [ARCCache.replace_eq]
  split
  · exact ARCCache.t1RemoveOldest_t1_size c
  · rw [ARCCache.t2RemoveOldest_t1]

theorem ARCCache.replace_t2_size (c : ARCCache) (k : Nat) :
    (c.replace k).t2.size = c.t2.size := by
  rw [ARCCache.replace_eq]
  split
  · rw [ARCCache.t1RemoveOldest_t2]
  · exact ARCCache.t2RemoveOldest_t2_size c

theorem ARCCache.addB1_live {c : ARCCache} (k v : Nat)
    (h1 : k ∉ c.t1.keys) (hsz : 1 ≤ c.t2.size) :
    (c.addB1 k v).Peek k = some v ∧ (c.addB1 k v).Contains k = true := by
  unfold ARCCache.addB1
  dsimp only
  refine ARCCache.t2Add_live k v ?_ ?_
  · show (ARCCache.replace _ k).t1.contains k = false
    refine LRU.contains_eq_false_iff.mpr ?_
    intro hm
    have hm2 := ARCCache.replace_mem_t1 hm
    exact h1 hm2
  · show 1 ≤ (ARCCache.replace _ k).t2.size
    rw [ARCCache.replace_t2_size]
    exact hsz

theorem ARCCache.addB2_live {c : ARCCache} (k v : Nat)
    (h1 : k ∉ c.t1.keys) (hsz : 1 ≤ c.t2.size) :
    (c.addB2 k v).Peek k = some v ∧ (c.addB2 k v).Contains k = true := by
  unfold ARCCache.addB2
  dsimp only
  refine ARCCache.t2Add_live k v ?_ ?_
  · show (ARCCache.replace _ k).t1.contains k = false
    refine LRU.contains_eq_false_iff.mpr ?_
    intro hm
    have hm2 := ARCCache.replace_mem_t1 hm
    exact h1 hm2
  · show 1 ≤ (ARCCache.replace _ k).t2.size
    rw [ARCCache.replace_t2_size]
    exact hsz

theorem ARCCache.addMiss_live {c : ARCCache} (k v : Nat)
    (h1 : c.t1.size = c.size) (hs : 1 ≤ c.size) :
    (c.addMiss k v).Peek k = some v ∧ (c.addMiss k v).Contains k = true := by
  unfold ARCCache.addMiss
  refine ARCCache.t1Add_live k v ?_
  split
  · split
    · rw [ARCCache.t1RemoveOldest_t1_size]
      omega
    · rw [ARCCache.replace_t1_size]
      show 1 ≤ c.t1.size
      omega
  · split
    · rw [ARCCache.replace_t1_size]
      split
      · show 1 ≤ c.t1.size
        omega
      · omega
    · omega

/-- C10: for every cache state whose live sub-lists carry the constructed
(positive) capacity, immediately after `Add k v` the key is live: `Peek`
returns the just-added value and `Contains` is true.  The capacity
management inside `Add` (the `replace` call and the ghost or oldest
evictions) never evicts the key being added. -/
theorem C10_added_key_live (c : ARCCache) (k v : Nat)
    (h1 : c.t1.size = c.size) (h2 : c.t2.size = c.size) (hs : 1 ≤ c.size) :
    (c.Add k v).Peek k = some v ∧ (c.Add k v).Contains k = true := by
  unfold ARCCache.Add
  by_cases hc1 : c.t1.contains k = true
  · rw [if_pos hc1]
    refine ARCCache.t2Add_live k v ?_ ?_
    · show (c.t1.remove k).contains k = false
      refine LRU.contains_eq_false_iff.mpr ?_
      intro hm
      exact (LRU.mem_keys_remove.mp hm).2 rfl
    · show 1 ≤ c.t2.size
      omega
  · rw [if_neg hc1]
    have hc1f := ARCCache.contains_false_of_not_true hc1
    have hnm : k ∉ c.t1.keys := LRU.contains_eq_false_iff.mp hc1f
    by_cases hc2 : c.t2.contains k = true
    · rw [if_pos hc2]
      exact ARCCache.t2Add_live k v hc1f (by omega)
    · rw [if_neg hc2]
      by_cases hc3 : c.b1.contains k = true
      · rw [if_pos hc3]
        exact ARCCache.addB1_live k v hnm (by omega)
      · rw [if_neg hc3]
        by_cases hc4 : c.b2.contains k = true
        · rw [if_pos hc4]
          exact ARCCache.addB2_live k v hnm (by omega)
        · rw [if_neg hc4]
          exact ARCCache.addMiss_live k v h1 hs

/-- Witness for C10 at a concrete reachable state (capacity 2, with key 1
already promoted to T2 and key 9 fresh). -/
theorem C10_added_key_live_witness :
    ((runOps (arcInit 2) [.add 1 10, .add 2 20, .get 1]).Add 9 99).Peek 9 = some 99 ∧
    ((runOps (arcInit 2) [.add 1 10, .add 2 20, .get 1]).Add 9 99).Contains 9 = true :=
  C10_added_key_live (runOps (arcInit 2) [.add 1 10, .add 2 20, .get 1]) 9 99
    (by decide) (by decide) (by decide)

/-- C7: `add` on the bounded recency list: a present key is moved to the
most-recent position with its value overwritten; an absent key is
inserted at the most-recent position; and when the insertion pushes the
length above the capacity, the least-recently-touched entry is evicted
(dropped from the sequence, hence from the index) and handed to the
eviction callback (the reported pair) with its key and stored value. -/
theorem C7_bounded_list_add {V : Type} (l : LRU V) (k : Nat) (v : V) :
    (l.contains k = true →
      l.addE k v =
        ({ l with entries := (k, v) :: l.entries.filter (fun x => x.1 != k) }, none)) ∧
    (l.contains k = false → l.len < l.size →
      l.addE k v = ({ l with entries := (k, v) :: l.entries }, none)) ∧
    (l.contains k = false → l.len = l.size → 1 ≤ l.size →
      (l.addE k v).1.entries = (k, v) :: l.entries.dropLast ∧
      (l.addE k v).2 = l.entries.getLast?) := by
  refine ⟨?_, ?_, ?_⟩
  · intro h
    exact LRU.addE_of_contains v h
  · intro h hlen
    refine LRU.addE_of_fits v h ?_
    unfold LRU.len at hlen
    omega
  · intro h hlen hsz
    unfold LRU.len at hlen
    rw [LRU.addE_of_full v h (by omega)]
    have hne : l.entries ≠ [] := by
      intro he
      rw [he] at hlen
      simp at hlen
      omega
    cases hes : l.entries with
    | nil => exact absurd hes hne
    | cons e es =>
        constructor
        · show ((k, v) :: e :: es).dropLast = (k, v) :: (e :: es).dropLast
          rw [List.dropLast_cons₂]
        · show ((k, v) :: e :: es).getLast? = (e :: es).getLast?
          rw [List.getLast?_cons_cons]

/-- Witness for C7: the three cases at concrete lists (present key;
absent key with room; absent key at capacity, where the oldest entry
(2, 20) is evicted and reported). -/
theorem C7_bounded_list_add_witness :
    ((⟨2, [(1, 10), (2, 20)]⟩ : LRU Nat).addE 1 99 =
      (⟨2, [(1, 99), (2, 20)]⟩, none)) ∧
    ((⟨3, [(1, 10), (2, 20)]⟩ : LRU Nat).addE 3 30 =
      (⟨3, [(3, 30), (1, 10), (2, 20)]⟩, none)) ∧
    (((⟨2, [(1, 10), (2, 20)]⟩ : LRU Nat).addE 3 30).1.entries =
        [(3, 30), (1, 10)] ∧
      ((⟨2, [(1, 10), (2, 20)]⟩ : LRU Nat).addE 3 30).2 = some (2, 20)) :=
  ⟨(C7_bounded_list_add ⟨2, [(1, 10), (2, 20)]⟩ 1 99).1 (by decide),
   (C7_bounded_list_add ⟨3, [(1, 10), (2, 20)]⟩ 3 30).2.1 (by decide) (by decide),
   (C7_bounded_list_add ⟨2, [(1, 10), (2, 20)]⟩ 3 30).2.2 (by decide) (by decide) (by decide)⟩

/-! ### The ghost-hit branches follow the spec formulas -/

theorem delta_eq_max {b1 b2 : Nat} (h : 1 ≤ b1) :
    (if b2 > b1 then b2 / b1 else 1) = max 1 (b2 / b1) := by
  split
  · rename_i hgt
    have h2 : 1 ≤ b2 / b1 := (Nat.le_div_iff_mul_le (by omega)).mpr (by omega)
    omega
  · rename_i hle
    have h2 : b2 / b1 ≤ 1 := by
      calc b2 / b1 ≤ b1 / b1 := Nat.div_le_div_right (by omega)
      _ = 1 := Nat.div_self (by omega)
    omega

theorem ARCCache.t2Add_p (c : ARCCache) (k v : Nat) : (c.t2Add k v).p = c.p := by
  rcases hr : c.t2.addE k v with ⟨l', ev⟩
  cases ev with
  | none => rw [ARCCache.t2Add_eq_none hr]
  | some e => rw [ARCCache.t2Add_eq_some hr]

/-- C3: the ghost-hit branches of `Add`.  If the key is found in B1 (and
is in neither T1 nor T2), `Add` sets p to
min(size, p + max(1, |B2| / |B1|)) with Nat (integer) division, calls
`replace key` on the p-updated cache, removes the key from B1 and adds
the key with the new value to T2.  Symmetrically, if the key is found in
B2 (and in none of T1, T2, B1), p becomes p - max(1, |B1| / |B2|) in
truncated subtraction, which equals max(0, p - delta) over the integers
(stated as the cast equation), then `replace`, removal from B2, and the
add to T2 follow. -/
theorem C3_ghost_hit_adaptation (c : ARCCache) (k v : Nat)
    (h1 : c.t1.contains k = false) (h2 : c.t2.contains k = false) :
    (c.b1.contains k = true →
      c.Add k v =
        ({ ({ c with p := min c.size (c.p + max 1 (c.b2.len / c.b1.len)) } : ARCCache).replace k with
            b1 := (({ c with p := min c.size (c.p + max 1 (c.b2.len / c.b1.len)) } : ARCCache).replace k).b1.remove k }).t2Add k v ∧
      (c.Add k v).p = min c.size (c.p + max 1 (c.b2.len / c.b1.len))) ∧
    (c.b1.contains k = false → c.b2.contains k = true →
      c.Add k v =
        ({ ({ c with p := c.p - max 1 (c.b1.len / c.b2.len) } : ARCCache).replace k with
            b2 := (({ c with p := c.p - max 1 (c.b1.len / c.b2.len) } : ARCCache).replace k).b2.remove k }).t2Add k v ∧
      ((c.Add k v).p : Int) = max 0 ((c.p : Int) - (max 1 (c.b1.len / c.b2.len) : Nat))) := by
  constructor
  · intro h3
    have hb1 : 1 ≤ c.b1.len := LRU.len_pos_of_contains h3
    have hEq : c.Add k v =
        ({ ({ c with p := min c.size (c.p + max 1 (c.b2.len / c.b1.len)) } : ARCCache).replace k with
            b1 := (({ c with p := min c.size (c.p + max 1 (c.b2.len / c.b1.len)) } : ARCCache).replace k).b1.remove k }).t2Add k v := by
      unfold ARCCache.Add
      rw [if_neg (by simp [h1]), if_neg (by simp [h2]), if_pos h3]
      unfold ARCCache.addB1
      dsimp only
      rw [delta_eq_max hb1]
      rw [show (if c.p + max 1 (c.b2.len / c.b1.len) ≥ c.size then c.size
                else c.p + max 1 (c.b2.len / c.b1.len)) =
            min c.size (c.p + max 1 (c.b2.len / c.b1.len)) from by split <;> omega]
    refine ⟨hEq, ?_⟩
    rw [hEq, ARCCache.t2Add_p]
    show (ARCCache.replace _ k).p = _
    rw [ARCCache.replace_p]
  · intro h3 h4
    have hb2 : 1 ≤ c.b2.len := LRU.len_pos_of_contains h4
    have hEq : c.Add k v =
        ({ ({ c with p := c.p - max 1 (c.b1.len / c.b2.len) } : ARCCache).replace k with
            b2 := (({ c with p := c.p - max 1 (c.b1.len / c.b2.len) } : ARCCache).replace k).b2.remove k }).t2Add k v := by
      unfold ARCCache.Add
      rw [if_neg (by simp [h1]), if_neg (by simp [h2]), if_neg (by simp [h3]), if_pos h4]
      unfold ARCCache.addB2
      dsimp only
      rw [delta_eq_max hb2]
      rw [show (if max 1 (c.b1.len / c.b2.len) ≥ c.p then 0
                else c.p - max 1 (c.b1.len / c.b2.len)) =
            c.p - max 1 (c.b1.len / c.b2.len) from by split <;> omega]
    refine ⟨hEq, ?_⟩
    rw [hEq, ARCCache.t2Add_p]
    have hp : (({ c with p := c.p - max 1 (c.b1.len / c.b2.len) } : ARCCache).replace k).p =
        c.p - max 1 (c.b1.len / c.b2.len) := ARCCache.replace_p _ k
    rw [show ({ ({ c with p := c.p - max 1 (c.b1.len / c.b2.len) } : ARCCache).replace k with
            b2 := (({ c with p := c.p - max 1 (c.b1.len / c.b2.len) } : ARCCache).replace k).b2.remove k } : ARCCache).p =
          (({ c with p := c.p - max 1 (c.b1.len / c.b2.len) } : ARCCache).replace k).p from rfl]
    rw [hp]
    omega

/-- Witness for C3: the B1 case at the section-8 scenario state of
capacity 2 (B1 holds key 2) and the B2 case at a capacity-1 state whose
B2 holds key 0. -/
theorem C3_ghost_hit_adaptation_witness :
    ((runOps (arcInit 2) [.add 1 10, .add 2 20, .get 1, .add 3 30]).Add 2 99).p =
      min (runOps (arcInit 2) [.add 1 10, .add 2 20, .get 1, .add 3 30]).size
        ((runOps (arcInit 2) [.add 1 10, .add 2 20, .get 1, .add 3 30]).p +
          max 1 ((runOps (arcInit 2) [.add 1 10, .add 2 20, .get 1, .add 3 30]).b2.len /
            (runOps (arcInit 2) [.add 1 10, .add 2 20, .get 1, .add 3 30]).b1.len)) ∧
    (((runOps (arcInit 1) [.add 0 0, .add 0 1, .add 1 2]).Add 0 99).p : Int) =
      max 0 (((runOps (arcInit 1) [.add 0 0, .add 0 1, .add 1 2]).p : Int) -
        (max 1 ((runOps (arcInit 1) [.add 0 0, .add 0 1, .add 1 2]).b1.len /
          (runOps (arcInit 1) [.add 0 0, .add 0 1, .add 1 2]).b2.len) : Nat)) :=
  ⟨((C3_ghost_hit_adaptation (runOps (arcInit 2) [.add 1 10, .add 2 20, .get 1, .add 3 30])
      2 99 (by decide) (by decide)).1 (by decide)).2,
   ((C3_ghost_hit_adaptation (runOps (arcInit 1) [.add 0 0, .add 0 1, .add 1 2])
      0 99 (by decide) (by decide)).2 (by decide) (by decide)).2⟩

/-! ### `Get` behavior -/

theorem LRU.get_snd_eq_peek {V : Type} (l : LRU V) (k : Nat) : (l.get k).2 = l.peek k := by
  cases hf : l.entries.find? (fun e => e.1 == k) with
  | none =>
      rw [LRU.get_of_find?_none hf]
      unfold LRU.peek
      rw [hf]
      rfl
  | some e =>
      rw [LRU.get_of_find?_some hf]
      unfold LRU.peek
      rw [hf]
      rfl

theorem LRU.addE_snd_none_of_room {V : Type} {l : LRU V} (k : Nat) (v : V)
    (h : l.entries.length + 1 ≤ l.size) : (l.addE k v).2 = none := by
  by_cases hc : l.contains k = true
  · rw [LRU.addE_of_contains v hc]
  · rw [LRU.addE_of_fits v (ARCCache.contains_false_of_not_true hc) h]

theorem ARCCache.t2Add_b1 (c : ARCCache) (k v : Nat) : (c.t2Add k v).b1 = c.b1 := by
  rcases hr : c.t2.addE k v with ⟨l', ev⟩
  cases ev with
  | none => rw [ARCCache.t2Add_eq_none hr]
  | some e => rw [ARCCache.t2Add_eq_some hr]

theorem ARCCache.t2Add_b2_of_room (c : ARCCache) (k v : Nat)
    (h : c.t2.len + 1 ≤ c.t2.size) : (c.t2Add k v).b2 = c.b2 := by
  rcases hr : c.t2.addE k v with ⟨l', ev⟩
  cases ev with
  | none => rw [ARCCache.t2Add_eq_none hr]
  | some e =>
      have h2 := LRU.addE_snd_none_of_room k v h
      rw [hr] at h2
      simp at h2

theorem ARCCache.Get_of_t1_some {c : ARCCache} {k v : Nat}
    (h : c.t1.peek k = some v) :
    c.Get k = (({ c with t1 := c.t1.remove k }).t2Add k v, some v) := by
  unfold ARCCache.Get
  rw [h]

theorem ARCCache.Get_of_t1_none {c : ARCCache} {k : Nat}
    (h : c.t1.peek k = none) :
    c.Get k =
      match c.t2.get k with
      | (t2', some v) => ({ c with t2 := t2' }, some v)
      | (_, none) => (c, none) := by
  unfold ARCCache.Get
  rw [h]

/-- Counterexample to C5 as stated: at the reachable capacity-1 state
after add 0, add 1, add 0 (whose live set is overfull because of the
size-invariant bug of `Add`), `Get 1` hits T1 and its promotion into the
full T2 spills T2's oldest key 0 into the ghost list B2: `Get` modifies a
ghost list. -/
theorem C5_get_modifies_ghost :
    ((runOps (arcInit 1) [.add 0 10, .add 1 11, .add 0 12]).Get 1).2 = some 11 ∧
    (runOps (arcInit 1) [.add 0 10, .add 1 11, .add 0 12]).b2.contains 0 = false ∧
    ((runOps (arcInit 1) [.add 0 10, .add 1 11, .add 0 12]).Get 1).1.b2.contains 0 = true := by
  refine ⟨?_, ?_, ?_⟩ <;> decide

/-- C5 (amended): for every cache state whose live sub-lists carry the
constructed capacity and whose live size respects |T1| + |T2| ≤ size
(any state not corrupted by the `Add` capacity bug), `Get` behaves
exactly as claimed: a T1 hit removes the key from T1, adds it to T2 with
its stored value and returns it found; otherwise a T2 hit returns T2's
value found, promoting only within T2; otherwise the result is
not-found with the cache unchanged — in particular a key present only in
a ghost list yields not-found — and in all cases the ghost lists B1 and
B2 are neither consulted nor modified. -/
theorem C5_get_behavior (c : ARCCache) (k : Nat)
    (h1 : c.t1.size = c.size) (h2 : c.t2.size = c.size)
    (hlen : c.t1.len + c.t2.len ≤ c.size) :
    (∀ v, c.t1.peek k = some v →
      (c.Get k).2 = some v ∧
      (c.Get k).1.t1 = c.t1.remove k ∧
      (c.Get k).1.t2 = c.t2.add k v ∧
      (c.Get k).1.b1 = c.b1 ∧ (c.Get k).1.b2 = c.b2) ∧
    (c.t1.peek k = none → ∀ v, c.t2.peek k = some v →
      (c.Get k).2 = some v ∧
      (c.Get k).1.t1 = c.t1 ∧ (c.Get k).1.t2 = (c.t2.get k).1 ∧
      (c.Get k).1.b1 = c.b1 ∧ (c.Get k).1.b2 = c.b2) ∧
    (c.t1.peek k = none → c.t2.peek k = none → c.Get k = (c, none)) := by
  refine ⟨?_, ?_, ?_⟩
  · intro v hp
    have hroom : c.t2.len + 1 ≤ c.t2.size := by
      have hk1 : k ∈ c.t1.keys := LRU.mem_of_peek_eq_some hp
      have ht1pos : 1 ≤ c.t1.len :=
        LRU.len_pos_of_contains (LRU.contains_iff_mem.mpr hk1)
      omega
    rw [ARCCache.Get_of_t1_some hp]
    refine ⟨rfl, ?_, ?_, ?_, ?_⟩
    · rw [ARCCache.t2Add_t1]
    · rw [ARCCache.t2Add_t2]
    · rw [ARCCache.t2Add_b1]
    · exact ARCCache.t2Add_b2_of_room _ k v hroom
  · intro hp v hp2
    rw [ARCCache.Get_of_t1_none hp]
    have hg2 : (c.t2.get k).2 = some v := by
      rw [LRU.get_snd_eq_peek]
      exact hp2
    rcases hg : c.t2.get k with ⟨t2', r⟩
    rw [hg] at hg2
    simp only at hg2
    subst hg2
    exact ⟨rfl, rfl, rfl, rfl, rfl⟩
  · intro hp hp2
    rw [ARCCache.Get_of_t1_none hp]
    have hg2 : (c.t2.get k).2 = none := by
      rw [LRU.get_snd_eq_peek]
      exact hp2
    rcases hg : c.t2.get k with ⟨t2', r⟩
    rw [hg] at hg2
    simp only at hg2
    subst hg2
    rfl

/-- Witness for the amended C5 at concrete states: a T1 hit (key 2), a
T2 hit (key 1) and a miss on a key (9) that is only in a ghost list. -/
theorem C5_get_behavior_witness :
    (((runOps (arcInit 2) [.add 1 10, .add 2 20, .get 1]).Get 2).2 = some 20 ∧
      ((runOps (arcInit 2) [.add 1 10, .add 2 20, .get 1]).Get 2).1.t1 =
        (runOps (arcInit 2) [.add 1 10, .add 2 20, .get 1]).t1.remove 2 ∧
      ((runOps (arcInit 2) [.add 1 10, .add 2 20, .get 1]).Get 2).1.t2 =
        (runOps (arcInit 2) [.add 1 10, .add 2 20, .get 1]).t2.add 2 20 ∧
      ((runOps (arcInit 2) [.add 1 10, .add 2 20, .get 1]).Get 2).1.b1 =
        (runOps (arcInit 2) [.add 1 10, .add 2 20, .get 1]).b1 ∧
      ((runOps (arcInit 2) [.add 1 10, .add 2 20, .get 1]).Get 2).1.b2 =
        (runOps (arcInit 2) [.add 1 10, .add 2 20, .get 1]).b2) ∧
    ((runOps (arcInit 2) [.add 1 10, .add 2 20, .get 1, .add 3 30]).Get 9).2 = none ∧
    (runOps (arcInit 2) [.add 1 10, .add 2 20, .get 1, .add 3 30]).b1.contains 2 = true :=
  ⟨(C5_get_behavior (runOps (arcInit 2) [.add 1 10, .add 2 20, .get 1]) 2
      (by decide) (by decide) (by decide)).1 20 (by decide),
   by
     have h3 := (C5_get_behavior (runOps (arcInit 2) [.add 1 10, .add 2 20, .get 1, .add 3 30]) 9
       (by decide) (by decide) (by decide)).2.2 (by decide) (by decide)
     rw [h3],
   by decide⟩

/-! ### Filling a fresh cache with distinct keys (for the ghost-hit
adaptation scenario) -/

theorem ARCCache.Add_fresh_room {c : ARCCache} {k : Nat} (v : Nat)
    (hk : k ∉ c.t1.keys) (ht2 : c.t2.entries = []) (hb1 : c.b1.entries = [])
    (hb2 : c.b2.entries = []) (hroom : c.t1.len + 1 ≤ c.size)
    (ht1sz : c.t1.size = c.size) :
    c.Add k v = { c with t1 := ⟨c.t1.size, (k, v) :: c.t1.entries⟩ } := by
  have hc1 : c.t1.contains k = false := LRU.contains_eq_false_iff.mpr hk
  have hc2 : c.t2.contains k = false := by
    unfold LRU.contains
    rw [ht2]
    rfl
  have hc3 : c.b1.contains k = false := by
    unfold LRU.contains
    rw [hb1]
    rfl
  have hc4 : c.b2.contains k = false := by
    unfold LRU.contains
    rw [hb2]
    rfl
  have hlb1 : c.b1.len = 0 := by
    unfold LRU.len
    rw [hb1]
    rfl
  have hlt2 : c.t2.len = 0 := by
    unfold LRU.len
    rw [ht2]
    rfl
  have hlb2 : c.b2.len = 0 := by
    unfold LRU.len
    rw [hb2]
    rfl
  unfold ARCCache.Add
  rw [if_neg (by simp [hc1]), if_neg (by simp [hc2]), if_neg (by simp [hc3]),
    if_neg (by simp [hc4])]
  unfold ARCCache.addMiss
  rw [if_neg (by omega), if_neg (by omega)]
  refine ARCCache.t1Add_eq_none (LRU.addE_of_fits v hc1 ?_)
  unfold LRU.len at hroom
  omega

theorem ARCCache.addAll_fresh (f : Nat → Nat) :
    ∀ (l : List Nat) (c : ARCCache), l.Nodup → (∀ a ∈ l, a ∉ c.t1.keys) →
      c.t2.entries = [] → c.b1.entries = [] → c.b2.entries = [] →
      c.t1.size = c.size → c.t1.len + l.length ≤ c.size →
      addAll c (l.map fun a => (a, f a)) =
        { c with t1 := ⟨c.t1.size, (l.map fun a => (a, f a)).reverse ++ c.t1.entries⟩ } := by
  intro l
  induction l with
  | nil =>
      intro c _ _ _ _ _ _ _
      rfl
  | cons a l ih =>
      intro c hnd hfresh ht2 hb1 hb2 hsz hlen
      have hlen2 : c.t1.len + 1 ≤ c.size := by
        simp only [List.length_cons] at hlen
        omega
      have hstep : c.Add a (f a) = { c with t1 := ⟨c.t1.size, (a, f a) :: c.t1.entries⟩ } :=
        ARCCache.Add_fresh_room (f a) (hfresh a (by simp)) ht2 hb1 hb2 hlen2 hsz
      have hone : addAll c ((a :: l).map fun b => (b, f b)) =
          addAll (c.Add a (f a)) (l.map fun b => (b, f b)) := by
        simp only [addAll, List.map_cons, List.foldl_cons]
      rw [hone, hstep]
      have hrest := ih { c with t1 := ⟨c.t1.size, (a, f a) :: c.t1.entries⟩ }
        ((List.nodup_cons.mp hnd).2)
        (by
          intro b hb hmem
          have hkeys : b ∈ a :: c.t1.keys := hmem
          rcases List.mem_cons.mp hkeys with rfl | hmem2
          · exact (List.nodup_cons.mp hnd).1 hb
          · exact hfresh b (List.mem_cons_of_mem a hb) hmem2)
        ht2 hb1 hb2 hsz
        (by
          show ((a, f a) :: c.t1.entries).length + l.length ≤ c.size
          simp only [List.length_cons] at hlen ⊢
          unfold LRU.len at hlen
          omega)
      rw [hrest]
      rw [show ((a :: l).map fun b => (b, f b)) = (a, f a) :: (l.map fun b => (b, f b)) from rfl,
        List.reverse_cons, List.append_assoc, List.singleton_append]

theorem ARCCache.Add_fresh_full {c : ARCCache} {k : Nat} (v : Nat) {e : Nat × Nat}
    (hk : k ∉ c.t1.keys) (ht2 : c.t2.entries = []) (hb1 : c.b1.entries = [])
    (hb2 : c.b2.entries = []) (hfull : c.t1.len = c.size) (ht1sz : c.t1.size = c.size)
    (hb1sz : 1 ≤ c.b1.size) (hs : 1 ≤ c.size) (hg : c.t1.entries.getLast? = some e) :
    c.Add k v = { c with t1 := ⟨c.t1.size, (k, v) :: c.t1.entries.dropLast⟩,
                         b1 := ⟨c.b1.size, [(e.1, ())]⟩ } := by
  have hc1 : c.t1.contains k = false := LRU.contains_eq_false_iff.mpr hk
  have hc2 : c.t2.contains k = false := by
    unfold LRU.contains
    rw [ht2]
    rfl
  have hc3 : c.b1.contains k = false := by
    unfold LRU.contains
    rw [hb1]
    rfl
  have hc4 : c.b2.contains k = false := by
    unfold LRU.contains
    rw [hb2]
    rfl
  have hlb1 : c.b1.len = 0 := by
    unfold LRU.len
    rw [hb1]
    rfl
  unfold ARCCache.Add
  rw [if_neg (by simp [hc1]), if_neg (by simp [hc2]), if_neg (by simp [hc3]),
    if_neg (by simp [hc4])]
  unfold ARCCache.addMiss
  rw [if_pos (by omega), if_pos (by omega)]
  have hro : c.t1.removeOldestE = ({ c.t1 with entries := c.t1.entries.dropLast }, some e) :=
    LRU.removeOldestE_of_getLast hg
  rw [ARCCache.t1RemoveOldest_eq_some hro]
  have hb1add : c.b1.add e.1 () = ⟨c.b1.size, [(e.1, ())]⟩ := by
    unfold LRU.add
    rw [LRU.addE_of_fits () (by unfold LRU.contains; rw [hb1]; rfl)
      (by rw [hb1]; simpa using hb1sz)]
    rw [hb1]
  rw [hb1add]
  refine ARCCache.t1Add_eq_none (LRU.addE_of_fits v ?_ ?_)
  · refine LRU.contains_eq_false_iff.mpr ?_
    intro hm
    exact hk (mem_map_fst_dropLast hm)
  · show c.t1.entries.dropLast.length + 1 ≤ c.t1.size
    rw [List.length_dropLast]
    unfold LRU.len at hfull
    omega

theorem ARCCache.Get_snd_eq_Peek (c : ARCCache) (k : Nat) : (c.Get k).2 = c.Peek k := by
  cases hp : c.t1.peek k with
  | some v => rw [ARCCache.Get_of_t1_some hp, ARCCache.Peek_eq_of_t1_some hp]
  | none =>
      rw [ARCCache.Get_of_t1_none hp, ARCCache.Peek_eq_of_t1_none hp]
      have hs := LRU.get_snd_eq_peek c.t2 k
      rcases hg : c.t2.get k with ⟨t2', r⟩
      rw [hg] at hs
      cases r with
      | none => exact hs.symm ▸ rfl
      | some v =>
          simp only at hs
          rw [← hs]

theorem keys_revmap (l : List Nat) (f : Nat → Nat) :
    ((l.map fun a => (a, f a)).reverse.map Prod.fst) = l.reverse := by
  rw [List.map_reverse, List.map_map]
  have h : ∀ (m : List Nat), List.map (Prod.fst ∘ fun a => (a, f a)) m = m := by
    intro m
    induction m with
    | nil => rfl
    | cons x xs ih =>
        simp only [List.map_cons, ih]
        rfl
  rw [h l]


theorem ARCCache.addB1_p_eq (c : ARCCache) (k v : Nat) :
    (c.addB1 k v).p =
      if c.p + (if c.b2.len > c.b1.len then c.b2.len / c.b1.len else 1) ≥ c.size
      then c.size
      else c.p + (if c.b2.len > c.b1.len then c.b2.len / c.b1.len else 1) := by
  unfold ARCCache.addB1
  dsimp only
  rw [ARCCache.t2Add_p]
  show (ARCCache.replace _ k).p = _
  rw [ARCCache.replace_p]

theorem ARCCache.Add_eq_addB1 {c : ARCCache} {k : Nat} (v : Nat)
    (h1 : c.t1.contains k = false) (h2 : c.t2.contains k = false)
    (h3 : c.b1.contains k = true) :
    c.Add k v = c.addB1 k v := by
  unfold ARCCache.Add
  rw [if_neg (by simp [h1]), if_neg (by simp [h2]), if_pos h3]

/-- C8: starting from a fresh ARC cache of capacity size ≥ 1, adding
size + 1 distinct keys (written k0 :: mid ++ [kl], each key a with value
f a) leaves p at 0 and evicts the first key k0 into the ghost list B1;
re-adding k0 with any value w strictly increases p above its prior value
0, and immediately afterwards `Get k0` returns w found. -/
theorem C8_ghost_hit_raises_p (size : Nat) (hs : 1 ≤ size)
    (k0 : Nat) (mid : List Nat) (kl : Nat)
    (hnd : (k0 :: mid ++ [kl]).Nodup) (hlen : mid.length + 1 = size)
    (f : Nat → Nat) (w : Nat) :
    (addAll (arcInit size) ((k0 :: mid ++ [kl]).map fun a => (a, f a))).p = 0 ∧
    0 < ((addAll (arcInit size) ((k0 :: mid ++ [kl]).map fun a => (a, f a))).Add k0 w).p ∧
    (((addAll (arcInit size) ((k0 :: mid ++ [kl]).map fun a => (a, f a))).Add k0 w).Get
      k0).2 = some w := by
  have hnd2 : ((k0 :: mid) ++ [kl]).Nodup := hnd
  rcases List.nodup_append.mp hnd2 with ⟨hnodup1, -, hdisj⟩
  have hklnot : kl ∉ k0 :: mid := by
    intro hm
    exact hdisj hm (List.mem_singleton_self kl)
  have hk0not : k0 ∉ mid ++ [kl] := (List.nodup_cons.mp hnd).1
  -- phase 1: the first size adds exactly fill T1
  have hfill := ARCCache.addAll_fresh f (k0 :: mid) (arcInit size) hnodup1
    (by
      intro a ha hmem
      simp [arcInit, LRU.keys] at hmem)
    rfl rfl rfl rfl
    (by
      show 0 + (k0 :: mid).length ≤ size
      simp only [List.length_cons]
      omega)
  have hfill2 : addAll (arcInit size) ((k0 :: mid).map fun a => (a, f a)) =
      ({ size := size, p := 0,
         t1 := ⟨size, ((k0 :: mid).map fun a => (a, f a)).reverse⟩,
         b1 := ⟨size, []⟩, t2 := ⟨size, []⟩, b2 := ⟨size, []⟩ } : ARCCache) := by
    rw [hfill]
    simp only [arcInit, List.append_nil]
  -- phase 2: the (size+1)-st add evicts k0 into B1
  have hsplit : (k0 :: mid ++ [kl]).map (fun a => (a, f a)) =
      ((k0 :: mid).map fun a => (a, f a)) ++ [(kl, f kl)] := by
    simp
  have hfold : addAll (arcInit size) ((k0 :: mid ++ [kl]).map fun a => (a, f a)) =
      (addAll (arcInit size) ((k0 :: mid).map fun a => (a, f a))).Add kl (f kl) := by
    rw [hsplit]
    simp only [addAll, List.foldl_append, List.foldl_cons, List.foldl_nil]
  have hrevsplit : ((k0 :: mid).map fun a => (a, f a)).reverse =
      (mid.map fun a => (a, f a)).reverse ++ [(k0, f k0)] := by
    rw [List.map_cons, List.reverse_cons]
  have hc2eq : addAll (arcInit size) ((k0 :: mid ++ [kl]).map fun a => (a, f a)) =
      ({ size := size, p := 0,
         t1 := ⟨size, (kl, f kl) :: (mid.map fun a => (a, f a)).reverse⟩,
         b1 := ⟨size, [(k0, ())]⟩, t2 := ⟨size, []⟩, b2 := ⟨size, []⟩ } : ARCCache) := by
    rw [hfold, hfill2]
    rw [ARCCache.Add_fresh_full (f kl)
      (by
        show kl ∉ (⟨size, ((k0 :: mid).map fun a => (a, f a)).reverse⟩ : LRU Nat).keys
        unfold LRU.keys
        rw [keys_revmap]
        simp only [List.mem_reverse]
        exact hklnot)
      rfl rfl rfl
      (by
        show (((k0 :: mid).map fun a => (a, f a)).reverse).length = size
        rw [List.length_reverse, List.length_map, List.length_cons]
        omega)
      rfl (by simpa using hs) hs
      (by
        show (((k0 :: mid).map fun a => (a, f a)).reverse).getLast? = some (k0, f k0)
        rw [hrevsplit, List.getLast?_concat])]
    simp only [hrevsplit, List.dropLast_concat]
  -- the state after size+1 adds
  rw [hc2eq]
  have hkeys2 : (⟨size, (kl, f kl) :: (mid.map fun a => (a, f a)).reverse⟩ : LRU Nat).keys =
      kl :: mid.reverse := by
    unfold LRU.keys
    rw [List.map_cons, keys_revmap]
  have hk0t1 : k0 ∉ (⟨size, (kl, f kl) :: (mid.map fun a => (a, f a)).reverse⟩ : LRU Nat).keys := by
    rw [hkeys2]
    intro hm
    rcases List.mem_cons.mp hm with rfl | hm2
    · exact hk0not (by simp)
    · exact hk0not (List.mem_append_left _ (List.mem_reverse.mp hm2))
  refine ⟨rfl, ?_, ?_⟩
  · -- p strictly increases
    have main : ∀ c : ARCCache, c.t1.contains k0 = false → c.t2.contains k0 = false →
        c.b1.contains k0 = true → c.p = 0 → c.b1.len = 1 → c.b2.len = 0 → 1 ≤ c.size →
        0 < (c.Add k0 w).p := by
      intro c hcc1 hcc2 hcc3 hp hb1l hb2l hsz
      rw [ARCCache.Add_eq_addB1 w hcc1 hcc2 hcc3, ARCCache.addB1_p_eq, hp, hb1l, hb2l]
      rw [show (if (0 : Nat) > 1 then 0 / 1 else 1) = 1 from rfl]
      split <;> omega
    exact main _ (LRU.contains_eq_false_iff.mpr hk0t1) rfl (by simp [LRU.contains])
      rfl rfl rfl hs
  · -- the re-added key is found by Get
    have main : ∀ c : ARCCache, c.t1.contains k0 = false → c.t2.contains k0 = false →
        c.b1.contains k0 = true → 1 ≤ c.t2.size → k0 ∉ c.t1.keys →
        ((c.Add k0 w).Get k0).2 = some w := by
      intro c hcc1 hcc2 hcc3 hsz hnm
      rw [ARCCache.Get_snd_eq_Peek, ARCCache.Add_eq_addB1 w hcc1 hcc2 hcc3]
      exact (ARCCache.addB1_live k0 w hnm hsz).1
    exact main _ (LRU.contains_eq_false_iff.mpr hk0t1) rfl (by simp [LRU.contains])
      (by simpa using hs) hk0t1

/-- Witness for C8 at size 2 with keys 5, 6, 7 and value function
doubling the key, re-adding key 5 with value 42. -/
theorem C8_ghost_hit_raises_p_witness :
    (addAll (arcInit 2) (([5, 6, 7] : List Nat).map fun a => (a, 2 * a))).p = 0 ∧
    0 < ((addAll (arcInit 2) (([5, 6, 7] : List Nat).map fun a => (a, 2 * a))).Add 5 42).p ∧
    (((addAll (arcInit 2) (([5, 6, 7] : List Nat).map fun a => (a, 2 * a))).Add 5 42).Get
      5).2 = some 42 :=
  C8_ghost_hit_raises_p 2 (by decide) 5 [6] 7 (by decide) (by decide) (fun a => 2 * a) 42
